import Mathlib

/-!
Verification development for the cohomological risk scoring engine
(`cohomological_risk_scoring`: `sheaf.py`, `scorer.py`).

The Python data structures are shallowly embedded: a `networkx.Graph`
snapshot becomes `CRS.Graph` (nodes in insertion order, edges in the order
`graph.edges()` reports them, each with an attribute dictionary of numeric
values); floating point numerics are embedded as exact rationals `ℚ`;
`float('inf')` death times become `Option ℚ` with `none` for infinity;
Python exceptions become `Except` values.
-/

namespace CRS

/-- Edge attribute dictionary (`d` in `graph.edges(data=True)`): an
association list from attribute name to numeric value, first binding wins,
mirroring a Python dict with unique keys. -/
abbrev Attrs := List (String × ℚ)

/-- Embeds `d.get(key, default)` on an edge-attribute dict. -/
def attrGet (a : Attrs) (k : String) (d : ℚ) : ℚ :=
  match a with
  | [] => d
  | (k', v) :: rest => if k' = k then v else attrGet rest k d

/-- Python dict lookup (`key in dict` plus indexing) on an association
list: the first binding for the key, if any. -/
def assocLookup {α β : Type} [DecidableEq α] (k : α) : List (α × β) → Option β
  | [] => none
  | (a, b) :: rest => if a = k then some b else assocLookup k rest

/-- One undirected edge as `networkx` reports it: `u` and `v` in report
order (the order depends on node insertion history, so `u > v` is
possible), plus its attribute dict. -/
structure Edge where
  u : ℕ
  v : ℕ
  attrs : Attrs
deriving DecidableEq

/-- A `networkx.Graph` snapshot: node list in iteration order and edge
list in the order `graph.edges(data=True)` yields them. -/
structure Graph where
  nodes : List ℕ
  edges : List Edge
deriving DecidableEq

/-- Well-formedness of a `networkx.Graph` snapshot: node iteration has no
duplicates, every edge endpoint is a node, edges are loop-free simple
edges and each unordered endpoint pair occurs at most once. -/
def Graph.WF (g : Graph) : Prop :=
  g.nodes.Nodup ∧
  (∀ e ∈ g.edges, e.u ∈ g.nodes ∧ e.v ∈ g.nodes ∧ e.u ≠ e.v) ∧
  g.edges.Pairwise (fun e f =>
    ¬(e.u = f.u ∧ e.v = f.v) ∧ ¬(e.u = f.v ∧ e.v = f.u))

instance (g : Graph) : Decidable g.WF := by
  unfold Graph.WF; infer_instance

/-- Embeds `graph.has_edge(a, b)` (undirected membership test). -/
def Graph.hasEdge (g : Graph) (a b : ℕ) : Bool :=
  g.edges.any (fun e => decide ((e.u = a ∧ e.v = b) ∨ (e.u = b ∧ e.v = a)))

/-- Embeds `graph[a][b]`: attribute dict of the (unique, if well-formed)
edge joining `a` and `b`; junk value `[]` when the edge is absent (the
source only dereferences after `has_edge`/adjacency guards). -/
def Graph.edgeAttrs (g : Graph) (a b : ℕ) : Attrs :=
  match g.edges.find? (fun e => decide ((e.u = a ∧ e.v = b) ∨ (e.u = b ∧ e.v = a))) with
  | some e => e.attrs
  | none => []

/-- Embeds `graph[a][b].get('weight', 1)`. -/
def Graph.weightOf (g : Graph) (a b : ℕ) : ℚ :=
  attrGet (g.edgeAttrs a b) "weight" 1

/-- Combined `graph.has_edge(u, v) and graph[u][v].get('weight', 1) >= threshold`
check used by the clique filter (`edges_ok`) in `build_complex_from_graph`. -/
def Graph.hasEdgeW (g : Graph) (t : ℚ) (a b : ℕ) : Bool :=
  g.hasEdge a b && decide (t ≤ g.weightOf a b)

/-- Embeds `itertools.combinations(l, 2)`: all ordered-position pairs of a
list, in combinations order. -/
def pairsOf : List ℕ → List (ℕ × ℕ)
  | [] => []
  | x :: xs => xs.map (fun y => (x, y)) ++ pairsOf xs

/-- Embeds Python `list.index(v)`: index of the first occurrence, junk
value `l.length` when absent (the source only calls it on members). -/
def idxIn (l : List ℕ) (v : ℕ) : ℕ :=
  match l with
  | [] => 0
  | x :: xs => if x = v then 0 else idxIn xs v + 1

/-- Embeds `sorted(clique)`. -/
def sortList (l : List ℕ) : List ℕ :=
  l.insertionSort (· ≤ ·)

/-- The simplicial complex as `FinancialSheaf` stores it after
`build_complex_from_graph`: the configured `max_dim` plus the map
dimension ↦ stored simplex list. The dict keys present after a build are
`{0, 1} ∪ {2, …, max_dim}`; `dims` returns `[]` off those keys. -/
structure SComplex where
  maxDim : ℕ
  dims : ℕ → List (List ℕ)

/-- Dict-key membership `dim in self.complex` for a built complex. -/
def SComplex.hasKey (c : SComplex) (d : ℕ) : Prop :=
  d ≤ max 1 c.maxDim

instance (c : SComplex) (d : ℕ) : Decidable (c.hasKey d) := by
  unfold SComplex.hasKey; infer_instance

/-- Dimension-`d` simplex list built by `build_complex_from_graph` for
`d ≥ 2`: all vertex subsets of size `d+1` that are cliques of the graph
(`nx.enumerate_all_cliques` over the full-vertex subgraph) and whose
pairwise edges all meet the weight threshold (`edges_ok`), each stored as
`sorted(clique)`. -/
def buildDim (g : Graph) (t : ℚ) (d : ℕ) : List (List ℕ) :=
  ((g.nodes.sublistsLen (d + 1)).filter (fun c =>
      (pairsOf c).all (fun p => g.hasEdge p.1 p.2) &&
      (pairsOf c).all (fun p => g.hasEdgeW t p.1 p.2))).map sortList

/-- Embeds `FinancialSheaf.build_complex_from_graph(graph, threshold)` with
`max_simplex_dim = maxDim`: dimension 0 gets one singleton per node (node
order), dimension 1 gets `[u, v]` for each edge passing the weight
threshold, in report order and report orientation (the source does not
sort these), dimensions `2 … maxDim` get the threshold-respecting cliques
in canonical sorted order. -/
def buildComplex (g : Graph) (t : ℚ) (maxDim : ℕ) : SComplex where
  maxDim := maxDim
  dims := fun d =>
    if d = 0 then g.nodes.map (fun v => [v])
    else if d = 1 then
      (g.edges.filter (fun e => decide (t ≤ attrGet e.attrs "weight" 1))).map
        (fun e => [e.u, e.v])
    else if 2 ≤ d ∧ d ≤ maxDim then buildDim g t d
    else []

/-- Embeds `FinancialSheaf._orientation_sign(sigma, tau)`:
`(-1) ** sum(sigma.index(v) for v in tau)`. -/
def orientationSign (σ τ : List ℕ) : ℤ :=
  (-1) ^ (τ.map (idxIn σ)).sum

/-- Embeds `set(tau).issubset(set(sigma))`. -/
def subsetB (τ σ : List ℕ) : Bool :=
  τ.all (fun v => σ.contains v)

/-- Number of elements of `A` below `v`: the zero-based position `v` takes
in the sorted ordering of `A` when `v ∈ A`. -/
def posIn (A : Finset ℕ) (v : ℕ) : ℕ :=
  (A.filter (· < v)).card

/-- Sum over `B` of each element's position within `A`: the exponent of
the orientation sign in set form. -/
def posSum (A B : Finset ℕ) : ℕ :=
  ∑ v ∈ B, posIn A v

/-- A dense integer matrix with explicit shape (a zero-row matrix with
positive column count is distinct from the empty `(0, 0)` matrix, as for
`scipy.sparse` shapes). -/
structure Mat where
  rows : ℕ
  cols : ℕ
  data : List (List ℤ)
deriving DecidableEq

/-- Embeds `FinancialSheaf.compute_coboundary_matrix(dim)`: rows indexed
by the stored `(dim+1)`-simplices, columns by the stored `dim`-simplices;
entry is the orientation sign when the column simplex is a face (vertex
subset) of the row simplex, else 0; the empty `(0, 0)` matrix when either
dict key is absent. -/
def coboundaryMat (c : SComplex) (p : ℕ) : Mat :=
  if c.hasKey p ∧ c.hasKey (p + 1) then
    { rows := (c.dims (p + 1)).length
      cols := (c.dims p).length
      data := (c.dims (p + 1)).map (fun σ => (c.dims p).map (fun τ =>
          if subsetB τ σ then orientationSign σ τ else 0)) }
  else { rows := 0, cols := 0, data := [] }

/-- Dot product of a row with column `i` of a row-major matrix. -/
def dotCol (r : List ℤ) (B : List (List ℤ)) (i : ℕ) : ℤ :=
  ((r.zip B).map (fun p => p.1 * (p.2.getD i 0))).sum

/-- Row-major matrix product (`A @ B`). -/
def matMul (A B : Mat) : Mat where
  rows := A.rows
  cols := B.cols
  data := A.data.map (fun r => (List.range B.cols).map (dotCol r B.data))

/-- All entries of the matrix are zero. -/
def matIsZero (M : Mat) : Prop :=
  ∀ r ∈ M.data, ∀ x ∈ r, x = 0

instance (M : Mat) : Decidable (matIsZero M) := by
  unfold matIsZero; infer_instance

/-! ### Sheaf data, cocycle-norm estimation and PCR scoring -/

/-- A vertex feature as `define_sheaf_data` receives it: either a numpy
feature vector (embedded componentwise as rationals) or a plain Python
scalar. Edge features are plain scalars (`Dict` mapping edge tuples to
feature values), embedded directly as `ℚ`. -/
inductive VFeat
  | vec (l : List ℚ)
  | scalar (q : ℚ)
deriving DecidableEq

/-- Rational square root: exact on perfect rational squares. It stands in
for the floating `sqrt` inside `np.linalg.norm`; every concrete evaluation
in this development happens at perfect squares, where the two agree
exactly, and every general theorem below is insensitive to the values this
function takes elsewhere. -/
def ratSqrt (q : ℚ) : ℚ :=
  (Int.sqrt q.num : ℚ) / (Nat.sqrt q.den : ℚ)

/-- Euclidean norm `np.linalg.norm` of a 1-D array. -/
def ratNorm (l : List ℚ) : ℚ :=
  ratSqrt ((l.map (fun x => x * x)).sum)

/-- The hard-coded per-edge inconsistency computed inside
`FinancialSheaf._estimate_cocycle_norm`:
`np.linalg.norm(v_feat) - abs(e_feat)` when the vertex feature is an
array, `abs(v_feat - e_feat)` when it is a scalar. (The `else 1.0` branch
of the source is unreachable for features of these two shapes.) -/
def hardInconsistency (v : VFeat) (e : ℚ) : ℚ :=
  match v with
  | .vec l => ratNorm l - |e|
  | .scalar a => |a - e|

/-- The default restriction function installed by
`FinancialSheaf.define_sheaf_data` when none is supplied:
`np.linalg.norm(v_feat - e_feat)` for array vertex features (numpy
broadcasts the scalar edge feature), `v_feat - e_feat` for scalars. -/
def defaultRestriction (v : VFeat) (e : ℚ) : ℚ :=
  match v with
  | .vec l => ratNorm (l.map (fun x => x - e))
  | .scalar a => a - e

/-- An H¹ persistence interval `(birth, death)`; `death = none` embeds
`float('inf')`. -/
structure Interval where
  birth : ℚ
  death : Option ℚ
deriving DecidableEq

/-- A fully fitted `FinancialSheaf` as the scoring methods see it:
`self.graph`, `self.vertex_features`, `self.edge_features`,
`self.restriction_func` and `self.persistence_intervals['H1']`. -/
structure Fitted where
  graph : Graph
  vertexFeatures : List (ℕ × VFeat)
  edgeFeatures : List ((ℕ × ℕ) × ℚ)
  restriction : VFeat → ℚ → ℚ
  h1 : List Interval

/-- Embeds `graph.neighbors(v)`: the neighbors of `v` in edge order. -/
def Graph.neighborsOf (g : Graph) (v : ℕ) : List ℕ :=
  g.edges.filterMap (fun e =>
    if e.u = v then some e.v else if e.v = v then some e.u else none)

/-- Embeds `np.mean(l)` with the source's guard
`if inconsistencies else 0.0`. -/
def meanOrZero (l : List ℚ) : ℚ :=
  if l.isEmpty then 0 else l.sum / l.length

/-- The upper end of the doubling window: `death if death != float('inf')
else birth * 2`. -/
def intervalHi (birth : ℚ) (death : Option ℚ) : ℚ :=
  match death with
  | some d => d
  | none => birth * 2

/-- Embeds `FinancialSheaf._estimate_cocycle_norm(vertex, birth, death)`:
over the neighbors of `vertex`, keep those where the vertex has a feature
and the `(vertex, neighbor)` key has an edge feature, compute the
hard-coded inconsistency, double it when the edge's `'weight'` attribute
lies in `[birth, death]` (or `[birth, 2*birth]` for infinite death), and
return the mean (0 for an empty list). The attached restriction function
is never consulted. -/
def estimateCocycleNorm (M : Fitted) (vertex : ℕ) (birth : ℚ) (death : Option ℚ) : ℚ :=
  meanOrZero ((M.graph.neighborsOf vertex).filterMap (fun n =>
    match assocLookup vertex M.vertexFeatures, assocLookup (vertex, n) M.edgeFeatures with
    | some vf, some ef =>
      let raw := hardInconsistency vf ef
      let w := attrGet (M.graph.edgeAttrs vertex n) "weight" 1
      some (if birth ≤ w ∧ w ≤ intervalHi birth death then raw * 2 else raw)
    | _, _ => none))

/-- The cocycle-norm estimate as §4.5 of the specification words it
(stated from the spec, for comparison with the source's
`estimateCocycleNorm`): the mean over incident edges with available
features of the **attached restriction function's** discrepancy, doubled
inside the persistence window. -/
def claimedCocycleNorm (M : Fitted) (vertex : ℕ) (birth : ℚ) (death : Option ℚ) : ℚ :=
  meanOrZero ((M.graph.neighborsOf vertex).filterMap (fun n =>
    match assocLookup vertex M.vertexFeatures, assocLookup (vertex, n) M.edgeFeatures with
    | some vf, some ef =>
      let disc := M.restriction vf ef
      let w := attrGet (M.graph.edgeAttrs vertex n) "weight" 1
      some (if birth ≤ w ∧ w ≤ intervalHi birth death then disc * 2 else disc)
    | _, _ => none))

/-- The incident-edge list the cocycle-norm estimate actually averages
over: neighbors for which both the vertex's feature and the
`(vertex, neighbor)` edge feature are present in the sheaf data. -/
def availableNeighbors (M : Fitted) (vertex : ℕ) : List ℕ :=
  (M.graph.neighborsOf vertex).filter (fun n =>
    (assocLookup vertex M.vertexFeatures).isSome &&
    (assocLookup (vertex, n) M.edgeFeatures).isSome)

/-- The per-edge discrepancy in the spec's shape (§4.5) with the built-in
inconsistency in place of the attached restriction function (the change
the counterexample to C2 forces): the discrepancy, doubled when the edge's
`'weight'` attribute falls inside the persistence window. Junk value 0
when a feature is missing (never taken over `availableNeighbors`). -/
def weightedDiscrepancy (M : Fitted) (vertex : ℕ) (birth : ℚ) (death : Option ℚ)
    (n : ℕ) : ℚ :=
  match assocLookup vertex M.vertexFeatures, assocLookup (vertex, n) M.edgeFeatures with
  | some vf, some ef =>
    let w := attrGet (M.graph.edgeAttrs vertex n) "weight" 1
    (if birth ≤ w ∧ w ≤ intervalHi birth death then 2 else 1) * hardInconsistency vf ef
  | _, _ => 0

/-- The §4.5 sentence as a definition: mean, over the incident edges with
available features, of the (doubled-in-window) discrepancy; 0 when there
are none. -/
def meanCocycleNorm (M : Fitted) (vertex : ℕ) (birth : ℚ) (death : Option ℚ) : ℚ :=
  if (availableNeighbors M vertex).isEmpty then 0
  else ((availableNeighbors M vertex).map (weightedDiscrepancy M vertex birth death)).sum /
    (availableNeighbors M vertex).length

/-- Persistence length of an interval: `death - birth` when death is
finite, else `birth` (the source never lets the infinity sentinel reach
arithmetic). -/
def persistenceLength (iv : Interval) : ℚ :=
  match iv.death with
  | some d => d - iv.birth
  | none => iv.birth

/-- Embeds `FinancialSheaf.compute_pcr_score(vertex, persistence_weight,
norm_weight)` on a fitted state: sum over H¹ intervals of
`pw * persistence + nw * cocycle_norm`. -/
def computePcrScore (M : Fitted) (v : ℕ) (pw nw : ℚ) : ℚ :=
  (M.h1.map (fun iv =>
    pw * persistenceLength iv + nw * estimateCocycleNorm M v iv.birth iv.death)).sum

/-- Python `max` over a list, `none` on the empty list. -/
def listMaxQ : List ℚ → Option ℚ
  | [] => none
  | x :: xs =>
    match listMaxQ xs with
    | none => some x
    | some m => some (max x m)

/-- The raw (pre-normalization) score dictionary built inside
`PCRScorer.compute_all_scores`, in node order. -/
def rawScores (M : Fitted) (pw nw : ℚ) : List (ℕ × ℚ) :=
  M.graph.nodes.map (fun v => (v, computePcrScore M v pw nw))

/-- Embeds `PCRScorer.compute_all_scores(persistence_weight, norm_weight)`:
raw scores per vertex, then division of every score by the maximum
(`max_score = 1` for an empty dict; division skipped unless
`max_score > 0`). -/
def computeAllScores (M : Fitted) (pw nw : ℚ) : List (ℕ × ℚ) :=
  let scores := rawScores M pw nw
  let maxScore := (listMaxQ (scores.map Prod.snd)).getD 1
  if 0 < maxScore then scores.map (fun p => (p.1, p.2 / maxScore)) else scores

/-! ### Persistence filtration assignment (the simplex-tree inserts) -/

/-- The vertex insertions of `compute_persistent_cohomology`:
`st.insert([v], filtration=0)` per node. -/
def vertexEntries (g : Graph) : List (List ℕ × ℚ) :=
  g.nodes.map (fun v => ([v], 0))

/-- The edge insertions: `st.insert([u, v],
filtration=data.get(filtration_param, 1.0))` per edge. -/
def edgeEntries (g : Graph) (param : String) : List (List ℕ × ℚ) :=
  g.edges.map (fun e => ([e.u, e.v], attrGet e.attrs param 1))

/-- The insertion attempted for one stored simplex of dimension ≥ 2:
collect the filtration values of those pairwise edges present in the
graph; insert with their maximum, or skip the simplex when none of its
pairwise edges exists. -/
def simplexEntry (g : Graph) (param : String) (s : List ℕ) : Option (List ℕ × ℚ) :=
  let fs := (pairsOf s).filterMap (fun p =>
    if g.hasEdge p.1 p.2 then some (attrGet (g.edgeAttrs p.1 p.2) param 1) else none)
  match listMaxQ fs with
  | none => none
  | some m => some (s, m)

/-- The higher-simplex insertions: `for dim in range(2, max_dim + 1)` over
`self.complex.get(dim, [])`. -/
def higherEntries (g : Graph) (c : SComplex) (param : String) : List (List ℕ × ℚ) :=
  (List.range' 2 (c.maxDim - 1)).flatMap (fun d =>
    (c.dims d).filterMap (simplexEntry g param))

/-- All simplex-tree insertions performed by
`compute_persistent_cohomology(filtration_param)` before handing off to
the external persistence engine (whose birth/death output is not part of
this embedding). -/
def simplexTreeEntries (g : Graph) (c : SComplex) (param : String) : List (List ℕ × ℚ) :=
  vertexEntries g ++ edgeEntries g param ++ higherEntries g c param

/-- The maximum filtration value over **all** pairwise edges of a simplex
(total: junk 0 for simplices with no pairs). -/
def allPairsMax (g : Graph) (param : String) (s : List ℕ) : ℚ :=
  (listMaxQ ((pairsOf s).map (fun p => attrGet (g.edgeAttrs p.1 p.2) param 1))).getD 0

/-! ### The cohomology kernel step and its degenerate shapes -/

/-- The shape of the kernel basis `compute_cohomology` produces, without
the numerical contents: `np.eye(cols)` in the zero-column branch, or the
null-space columns extracted from `scipy.sparse.linalg.svds`. -/
inductive KernelResult
  | identityBasis (n : ℕ)
  | svdNullspace (rows cols : ℕ)
deriving DecidableEq

/-- The kernel-computation step of `FinancialSheaf.compute_cohomology`
(source lines 202–208): when `delta.shape[1] > 0` it calls
`svds(delta, k=min(delta.shape) - 1)`, which per scipy's documented
contract requires `1 <= k < min(A.shape)` and raises `ValueError`
otherwise; when the column count is zero it returns
`np.eye(delta.shape[1])`. -/
def kernelStep (c : SComplex) (p : ℕ) : Except String KernelResult :=
  let rows := (coboundaryMat c p).rows
  let cols := (coboundaryMat c p).cols
  if 0 < cols then
    let k : ℤ := (min rows cols : ℤ) - 1
    if 1 ≤ k ∧ k < (min rows cols : ℤ) then
      .ok (.svdNullspace rows cols)
    else
      .error "svds requires 1 <= k < min(A.shape)"
  else .ok (.identityBasis cols)

/-! ### The stateful query layer and its precondition errors -/

/-- A Python exception as the caller observes it: the deliberate
`raise ValueError(...)` with its message, or the interpreter's generic
`AttributeError` for a missing attribute. -/
inductive PyErr
  | valueError (msg : String)
  | attributeError (attr : String)
deriving DecidableEq

/-- Whether an exception is one of the deliberate, distinct "not fitted"
conditions (the explicit `ValueError`s raised by the source); a generic
`AttributeError` is not. -/
def PyErr.isNotFitted : PyErr → Bool
  | .valueError _ => true
  | .attributeError _ => false

/-- The mutable attribute state of a `FinancialSheaf` between calls:
`self.graph`/`self.complex` exist after `build_complex_from_graph`,
`self.vertex_features`/`self.edge_features` after `define_sheaf_data`, and
`self.persistence_intervals` (its `'H1'` list; the `'H0'` list is never
consulted by the embedded queries) after `compute_persistent_cohomology`.
The stored restriction function is omitted: no scoring path reads it. -/
structure SheafState where
  built : Option (Graph × SComplex)
  sheafData : Option (List (ℕ × VFeat) × List ((ℕ × ℕ) × ℚ))
  persistence : Option (List Interval)

/-- Assemble the fitted view of a state (restriction function irrelevant
to every embedded computation, so the default is installed). -/
def SheafState.toFitted (g : Graph) (vf : List (ℕ × VFeat))
    (ef : List ((ℕ × ℕ) × ℚ)) (h1 : List Interval) : Fitted :=
  { graph := g, vertexFeatures := vf, edgeFeatures := ef
    restriction := defaultRestriction, h1 := h1 }

/-- Embeds `compute_persistent_cohomology`'s precondition and insertion
phase: without a built complex it raises the explicit
`ValueError("Build complex first using build_complex_from_graph()")`;
otherwise the observable we model is the list of simplex-tree
insertions. -/
def computePersistentCohomologyChecked (s : SheafState) (param : String) :
    Except PyErr (List (List ℕ × ℚ)) :=
  match s.built with
  | none => .error (.valueError "Build complex first using build_complex_from_graph()")
  | some (g, c) => .ok (simplexTreeEntries g c param)

/-- Embeds `compute_pcr_score`'s precondition: without
`self.persistence_intervals` it raises the explicit
`ValueError("Compute persistent cohomology first")`; otherwise the score
is computed from the attribute state (whose remaining attributes Python
would only miss with a generic `AttributeError`). -/
def computePcrScoreChecked (s : SheafState) (v : ℕ) (pw nw : ℚ) : Except PyErr ℚ :=
  match s.persistence with
  | none => .error (.valueError "Compute persistent cohomology first")
  | some h1 =>
    match s.built, s.sheafData with
    | some (g, _), some (vf, ef) => .ok (computePcrScore (SheafState.toFitted g vf ef h1) v pw nw)
    | none, _ => .error (.attributeError "graph")
    | _, none => .error (.attributeError "vertex_features")

/-- One Cohomological Risk Class record as `get_risk_classes` builds it. -/
structure CRC where
  id : ℕ
  birth : ℚ
  death : Option ℚ
  persistence : ℚ
  vertices : List ℕ
  riskLevel : ℚ
deriving DecidableEq

/-- Embeds `FinancialSheaf._find_vertices_in_cycle`: vertices whose PCR
score (at the default weights 1.0 and 0.5) exceeds 0.5, sorted by score
descending, top ten. -/
def findVerticesInCycle (M : Fitted) : List ℕ :=
  let vs := M.graph.nodes.filterMap (fun v =>
    let p := computePcrScore M v 1 (1 / 2)
    if (1 : ℚ) / 2 < p then some (v, p) else none)
  ((vs.insertionSort (fun a b => b.2 ≤ a.2)).map Prod.fst).take 10

/-- Embeds `FinancialSheaf.get_risk_classes(threshold)`: the body
dereferences `self.persistence_intervals` with **no** fitted-state guard,
so an unfitted call surfaces as the interpreter's generic
`AttributeError('persistence_intervals')`; with intervals present, the
qualifying intervals become CRC records (the graph and sheaf data are
only touched when some interval qualifies). -/
def getRiskClassesChecked (s : SheafState) (threshold : ℚ) : Except PyErr (List CRC) :=
  match s.persistence with
  | none => .error (.attributeError "persistence_intervals")
  | some h1 =>
    let qualifying := (List.range h1.length).zip h1 |>.filter
      (fun p => decide (threshold ≤ persistenceLength p.2))
    if qualifying.isEmpty then .ok [] else
    match s.built, s.sheafData with
    | some (g, _), some (vf, ef) =>
      .ok (qualifying.map (fun p =>
        { id := p.1, birth := p.2.birth, death := p.2.death
          persistence := persistenceLength p.2
          vertices := findVerticesInCycle (SheafState.toFitted g vf ef h1)
          riskLevel := min (persistenceLength p.2 * 10) 1 }))
    | none, _ => .error (.attributeError "graph")
    | _, none => .error (.attributeError "vertex_features")

/-- The complex `PCRScorer.fit` builds: `fit` exposes no threshold
parameter, so `build_complex_from_graph(graph)` runs with its default
`threshold = 0.0`. -/
def fitComplex (g : Graph) (maxDim : ℕ) : SComplex :=
  buildComplex g 0 maxDim

instance {ε α : Type} [DecidableEq ε] [DecidableEq α] : DecidableEq (Except ε α) := fun a b =>
  match a, b with
  | .ok x, .ok y => decidable_of_iff (x = y) (by simp)
  | .error x, .error y => decidable_of_iff (x = y) (by simp)
  | .ok _, .error _ => isFalse (by simp)
  | .error _, .ok _ => isFalse (by simp)

/-! ### Concrete instances used as counterexamples and witnesses -/

/-- The triangle on `{0, 1, 2}` as `networkx` reports it after
`G.add_edge(1, 0); G.add_edge(1, 2); G.add_edge(0, 2)` with unit weights:
the first edge is reported as `(1, 0)`, in reversed vertex order. -/
def gRev : Graph :=
  { nodes := [1, 0, 2]
    edges := [⟨1, 0, [("weight", 1)]⟩, ⟨1, 2, [("weight", 1)]⟩, ⟨0, 2, [("weight", 1)]⟩] }

/-- The same triangle with every edge reported in ascending vertex order. -/
def gTri : Graph :=
  { nodes := [0, 1, 2]
    edges := [⟨0, 1, [("weight", 1)]⟩, ⟨1, 2, [("weight", 1)]⟩, ⟨0, 2, [("weight", 1)]⟩] }

/-- A single edge reported as `(1, 0)` (after `G.add_edge(1, 0)`). -/
def gPair : Graph :=
  { nodes := [1, 0], edges := [⟨1, 0, [("weight", 1)]⟩] }

/-- A single unit-weight edge `(0, 1)`. -/
def gEdge : Graph :=
  { nodes := [0, 1], edges := [⟨0, 1, [("weight", 1)]⟩] }

/-- A fitted state over `gEdge`: scalar vertex feature `3` at vertex 0,
edge feature `5` on `(0, 1)`, default restriction, no intervals. -/
def mEdge : Fitted :=
  { graph := gEdge, vertexFeatures := [(0, .scalar 3)], edgeFeatures := [((0, 1), 5)]
    restriction := defaultRestriction, h1 := [] }

/-- The 4-cycle `0-1-2-3-0` with unit weights. -/
def gCyc : Graph :=
  { nodes := [0, 1, 2, 3]
    edges := [⟨0, 1, [("weight", 1)]⟩, ⟨1, 2, [("weight", 1)]⟩,
              ⟨2, 3, [("weight", 1)]⟩, ⟨0, 3, [("weight", 1)]⟩] }

/-- A fitted state over the 4-cycle whose single H¹ class `(1, ∞)` matches
what the persistence engine reports for an unfilled unit-weight 4-cycle;
vertex 0 carries scalar feature `0` and only edge `(0, 1)` carries a
feature (`5`). -/
def mCyc : Fitted :=
  { graph := gCyc, vertexFeatures := [(0, .scalar 0)], edgeFeatures := [((0, 1), 5)]
    restriction := defaultRestriction, h1 := [⟨1, none⟩] }

/-- A single edge whose attribute dict lacks the `'weight'` key. -/
def gNoW : Graph :=
  { nodes := [0, 1], edges := [⟨0, 1, [("time", 3)]⟩] }

/-- A sheaf state that has been built and given sheaf data but on which
persistence has not been computed. -/
def sNoPersistence : SheafState :=
  { built := some (gEdge, buildComplex gEdge 0 2)
    sheafData := some ([(0, .scalar 1)], [((0, 1), 2)])
    persistence := none }

/-- The freshly initialized state: nothing attached yet. -/
def sEmpty : SheafState :=
  { built := none, sheafData := none, persistence := none }

/-! ### List-level lemmas -/

lemma sortList_perm (l : List ℕ) : List.Perm (sortList l) l :=
  List.perm_insertionSort _ l

lemma sortList_sorted (l : List ℕ) : (sortList l).Sorted (· ≤ ·) :=
  List.sorted_insertionSort _ l

lemma sortList_toFinset (l : List ℕ) : (sortList l).toFinset = l.toFinset :=
  List.toFinset_eq_of_perm _ _ (sortList_perm l)

lemma sortList_length (l : List ℕ) : (sortList l).length = l.length :=
  (sortList_perm l).length_eq

lemma sortList_nodup {l : List ℕ} (h : l.Nodup) : (sortList l).Nodup :=
  ((sortList_perm l).nodup_iff).mpr h

lemma sortList_mem_iff {l : List ℕ} {v : ℕ} : v ∈ sortList l ↔ v ∈ l :=
  (sortList_perm l).mem_iff

lemma sorted_lt_of_le_nodup {l : List ℕ} (hs : l.Sorted (· ≤ ·)) (hn : l.Nodup) :
    l.Sorted (· < ·) := by
  induction l with
  | nil => simp
  | cons x xs ih =>
    rw [List.sorted_cons] at hs ⊢
    rw [List.nodup_cons] at hn
    exact ⟨fun b hb => lt_of_le_of_ne (hs.1 b hb) (fun e => hn.1 (e ▸ hb)), ih hs.2 hn.2⟩

lemma sortList_sorted_lt {l : List ℕ} (h : l.Nodup) : (sortList l).Sorted (· < ·) :=
  sorted_lt_of_le_nodup (sortList_sorted l) (sortList_nodup h)

lemma sorted_lists_eq {l₁ l₂ : List ℕ} (h₁ : l₁.Sorted (· < ·)) (h₂ : l₂.Sorted (· < ·))
    (h : l₁.toFinset = l₂.toFinset) : l₁ = l₂ := by
  haveI : IsAntisymm ℕ (· < ·) := ⟨fun a b hab hba => absurd hba (lt_asymm hab)⟩
  exact List.eq_of_perm_of_sorted
    (List.perm_of_nodup_nodup_toFinset_eq h₁.nodup h₂.nodup h) h₁ h₂

lemma sublist_eq_of_toFinset_eq {l s₁ s₂ : List ℕ} (hl : l.Nodup)
    (h₁ : List.Sublist s₁ l) (h₂ : List.Sublist s₂ l) (h : s₁.toFinset = s₂.toFinset) :
    s₁ = s₂ := by
  induction l generalizing s₁ s₂ with
  | nil =>
    rw [List.sublist_nil] at h₁ h₂
    rw [h₁, h₂]
  | cons x xs ih =>
    rw [List.nodup_cons] at hl
    cases h₁ with
    | cons _ h₁' =>
      cases h₂ with
      | cons _ h₂' => exact ih hl.2 h₁' h₂' h
      | @cons₂ t₂ _ _ h₂' =>
        exfalso
        have hx : x ∈ s₁.toFinset := by rw [h]; simp
        exact hl.1 (h₁'.subset (by simpa using hx))
    | @cons₂ t₁ _ _ h₁' =>
      cases h₂ with
      | cons _ h₂' =>
        exfalso
        have hx : x ∈ s₂.toFinset := by rw [← h]; simp
        exact hl.1 (h₂'.subset (by simpa using hx))
      | @cons₂ t₂ _ _ h₂' =>
        have hx₁ : x ∉ t₁.toFinset := fun hc => hl.1 (h₁'.subset (by simpa using hc))
        have hx₂ : x ∉ t₂.toFinset := fun hc => hl.1 (h₂'.subset (by simpa using hc))
        have hts : t₁.toFinset = t₂.toFinset := by
          ext a
          by_cases hax : a = x
          · subst hax
            simp [hx₁, hx₂]
          · have e1 : a ∈ t₁.toFinset ↔ a ∈ (x :: t₁).toFinset := by simp [hax]
            have e2 : a ∈ t₂.toFinset ↔ a ∈ (x :: t₂).toFinset := by simp [hax]
            rw [e1, e2, h]
        rw [ih hl.2 h₁' h₂' hts]

lemma forall_pairsOf_iff {P : ℕ → ℕ → Prop} {l : List ℕ} :
    (∀ p ∈ pairsOf l, P p.1 p.2) ↔ l.Pairwise P := by
  induction l with
  | nil => simp [pairsOf]
  | cons x xs ih =>
    rw [List.pairwise_cons, ← ih]
    constructor
    · intro h
      exact ⟨fun y hy => h (x, y) (by simp [pairsOf, hy]),
             fun p hp => h p (by simp [pairsOf]; right; exact hp)⟩
    · intro h p hp
      rw [pairsOf, List.mem_append] at hp
      rcases hp with hp | hp
      · obtain ⟨y, hy, rfl⟩ := List.mem_map.mp hp
        exact h.1 y hy
      · exact h.2 p hp

lemma pairsOf_all_iff {f : ℕ → ℕ → Bool} {l : List ℕ} :
    ((pairsOf l).all (fun p => f p.1 p.2) = true) ↔ l.Pairwise (fun a b => f a b = true) := by
  rw [List.all_eq_true]
  exact forall_pairsOf_iff (P := fun a b => f a b = true)

lemma pairsOf_mem {l : List ℕ} {p : ℕ × ℕ} (hp : p ∈ pairsOf l) : p.1 ∈ l ∧ p.2 ∈ l := by
  induction l with
  | nil => cases hp
  | cons x xs ih =>
    rw [pairsOf, List.mem_append] at hp
    rcases hp with hp | hp
    · obtain ⟨y, hy, rfl⟩ := List.mem_map.mp hp
      exact ⟨by simp, by simp [hy]⟩
    · exact ⟨List.mem_cons_of_mem _ (ih hp).1, List.mem_cons_of_mem _ (ih hp).2⟩

lemma pairsOf_ne {l : List ℕ} (hn : l.Nodup) {p : ℕ × ℕ} (hp : p ∈ pairsOf l) :
    p.1 ≠ p.2 := by
  induction l with
  | nil => cases hp
  | cons x xs ih =>
    rw [List.nodup_cons] at hn
    rw [pairsOf, List.mem_append] at hp
    rcases hp with hp | hp
    · obtain ⟨y, hy, rfl⟩ := List.mem_map.mp hp
      intro e
      simp only at e
      exact hn.1 (e ▸ hy)
    · exact ih hn.2 hp

lemma subsetB_iff {a b : List ℕ} : subsetB a b = true ↔ a.toFinset ⊆ b.toFinset := by
  simp [subsetB, List.all_eq_true, Finset.subset_iff, List.elem_iff]

lemma idxIn_eq_countP {l : List ℕ} (hs : l.Sorted (· < ·)) {v : ℕ} (hv : v ∈ l) :
    idxIn l v = l.countP (fun w => decide (w < v)) := by
  induction l with
  | nil => cases hv
  | cons x xs ih =>
    rw [List.sorted_cons] at hs
    by_cases hx : x = v
    · subst hx
      have hz : xs.countP (fun w => decide (w < x)) = 0 := by
        rw [List.countP_eq_zero]
        intro w hw
        simpa using not_lt_of_gt (hs.1 w hw)
      simp [idxIn, List.countP_cons, hz]
    · have hvxs : v ∈ xs := by
        rcases List.mem_cons.mp hv with h | h
        · exact absurd h.symm hx
        · exact h
      have hxv : x < v := hs.1 v hvxs
      simp [idxIn, hx, ih hs.2 hvxs, List.countP_cons, hxv, Nat.add_comm]

/-! ### Structural lemmas about the built complex -/

lemma build_dims_zero (g : Graph) (t : ℚ) (m : ℕ) :
    (buildComplex g t m).dims 0 = g.nodes.map (fun v => [v]) := by
  simp [buildComplex]

lemma build_dims_one (g : Graph) (t : ℚ) (m : ℕ) :
    (buildComplex g t m).dims 1 =
      (g.edges.filter (fun e => decide (t ≤ attrGet e.attrs "weight" 1))).map
        (fun e => [e.u, e.v]) := by
  simp [buildComplex]

lemma build_dims_ge2 (g : Graph) (t : ℚ) (m : ℕ) {d : ℕ} (h2 : 2 ≤ d) (hm : d ≤ m) :
    (buildComplex g t m).dims d = buildDim g t d := by
  have hd0 : d ≠ 0 := by omega
  have hd1 : d ≠ 1 := by omega
  simp [buildComplex, hd0, hd1, h2, hm]

lemma build_dims_off (g : Graph) (t : ℚ) (m : ℕ) {d : ℕ} (h2 : 2 ≤ d) (hm : m < d) :
    (buildComplex g t m).dims d = [] := by
  have hd0 : d ≠ 0 := by omega
  have hd1 : d ≠ 1 := by omega
  have : ¬(2 ≤ d ∧ d ≤ m) := by omega
  simp [buildComplex, hd0, hd1, this]

lemma mem_buildDim {g : Graph} {t : ℚ} {d : ℕ} {s : List ℕ} :
    s ∈ buildDim g t d ↔ ∃ c, (List.Sublist c g.nodes ∧ c.length = d + 1) ∧
      ((pairsOf c).all (fun p => g.hasEdge p.1 p.2) &&
       (pairsOf c).all (fun p => g.hasEdgeW t p.1 p.2)) = true ∧ s = sortList c := by
  unfold buildDim
  constructor
  · intro hs
    obtain ⟨c, hc, rfl⟩ := List.mem_map.mp hs
    rw [List.mem_filter] at hc
    exact ⟨c, List.mem_sublistsLen.mp hc.1, hc.2, rfl⟩
  · rintro ⟨c, hc1, hc2, rfl⟩
    exact List.mem_map.mpr ⟨c, List.mem_filter.mpr ⟨List.mem_sublistsLen.mpr hc1, hc2⟩, rfl⟩

lemma build_length {g : Graph} {t : ℚ} {m : ℕ} :
    ∀ d, ∀ s ∈ (buildComplex g t m).dims d, s.length = d + 1 := by
  intro d s hs
  match d with
  | 0 =>
    rw [build_dims_zero] at hs
    obtain ⟨v, _, rfl⟩ := List.mem_map.mp hs
    rfl
  | 1 =>
    rw [build_dims_one] at hs
    obtain ⟨e, _, rfl⟩ := List.mem_map.mp hs
    rfl
  | (n + 2) =>
    by_cases hm : n + 2 ≤ m
    · rw [build_dims_ge2 g t m (by omega) hm] at hs
      obtain ⟨c, ⟨_, hlen⟩, _, rfl⟩ := mem_buildDim.mp hs
      rw [sortList_length, hlen]
    · rw [build_dims_off g t m (by omega) (by omega)] at hs
      cases hs

lemma build_nodup {g : Graph} {t : ℚ} {m : ℕ} (hwf : g.WF) :
    ∀ d, ∀ s ∈ (buildComplex g t m).dims d, s.Nodup := by
  intro d s hs
  match d with
  | 0 =>
    rw [build_dims_zero] at hs
    obtain ⟨v, _, rfl⟩ := List.mem_map.mp hs
    simp
  | 1 =>
    rw [build_dims_one] at hs
    obtain ⟨e, he, rfl⟩ := List.mem_map.mp hs
    have := (hwf.2.1 e (List.mem_of_mem_filter he)).2.2
    simp [this]
  | (n + 2) =>
    by_cases hm : n + 2 ≤ m
    · rw [build_dims_ge2 g t m (by omega) hm] at hs
      obtain ⟨c, ⟨hsub, _⟩, _, rfl⟩ := mem_buildDim.mp hs
      exact sortList_nodup (hsub.nodup hwf.1)
    · rw [build_dims_off g t m (by omega) (by omega)] at hs
      cases hs

lemma build_mem_nodes {g : Graph} {t : ℚ} {m : ℕ} (hwf : g.WF) :
    ∀ d, ∀ s ∈ (buildComplex g t m).dims d, ∀ v ∈ s, v ∈ g.nodes := by
  intro d s hs v hv
  match d with
  | 0 =>
    rw [build_dims_zero] at hs
    obtain ⟨w, hw, rfl⟩ := List.mem_map.mp hs
    rw [List.mem_singleton] at hv
    exact hv ▸ hw
  | 1 =>
    rw [build_dims_one] at hs
    obtain ⟨e, he, rfl⟩ := List.mem_map.mp hs
    have hmem := hwf.2.1 e (List.mem_of_mem_filter he)
    rcases List.mem_cons.mp hv with rfl | hv'
    · exact hmem.1
    · rw [List.mem_singleton] at hv'
      exact hv' ▸ hmem.2.1
  | (n + 2) =>
    by_cases hm : n + 2 ≤ m
    · rw [build_dims_ge2 g t m (by omega) hm] at hs
      obtain ⟨c, ⟨hsub, _⟩, _, rfl⟩ := mem_buildDim.mp hs
      exact hsub.subset (sortList_mem_iff.mp hv)
    · rw [build_dims_off g t m (by omega) (by omega)] at hs
      cases hs

lemma build_sorted_ne_one {g : Graph} {t : ℚ} {m : ℕ} (hwf : g.WF) :
    ∀ d, d ≠ 1 → ∀ s ∈ (buildComplex g t m).dims d, s.Sorted (· < ·) := by
  intro d hd s hs
  match d with
  | 0 =>
    rw [build_dims_zero] at hs
    obtain ⟨v, _, rfl⟩ := List.mem_map.mp hs
    simp
  | 1 => exact absurd rfl hd
  | (n + 2) =>
    by_cases hm : n + 2 ≤ m
    · rw [build_dims_ge2 g t m (by omega) hm] at hs
      obtain ⟨c, ⟨hsub, _⟩, _, rfl⟩ := mem_buildDim.mp hs
      exact sortList_sorted_lt (hsub.nodup hwf.1)
    · rw [build_dims_off g t m (by omega) (by omega)] at hs
      cases hs

lemma build_sorted {g : Graph} {t : ℚ} {m : ℕ} (hwf : g.WF)
    (hes : ∀ e ∈ g.edges, e.u < e.v) :
    ∀ d, ∀ s ∈ (buildComplex g t m).dims d, s.Sorted (· < ·) := by
  intro d s hs
  by_cases hd : d = 1
  · subst hd
    rw [build_dims_one] at hs
    obtain ⟨e, he, rfl⟩ := List.mem_map.mp hs
    simp [List.sorted_cons, hes e (List.mem_of_mem_filter he)]
  · exact build_sorted_ne_one hwf d hd s hs

lemma pair_finset_eq {a b c d : ℕ} (hab : a ≠ b) (h : ({a, b} : Finset ℕ) = {c, d}) :
    (a = c ∧ b = d) ∨ (a = d ∧ b = c) := by
  have ha : a ∈ ({c, d} : Finset ℕ) := h ▸ (by simp)
  have hb : b ∈ ({c, d} : Finset ℕ) := h ▸ (by simp)
  have hc : c ∈ ({a, b} : Finset ℕ) := h ▸ (by simp)
  have hd : d ∈ ({a, b} : Finset ℕ) := h ▸ (by simp)
  simp only [Finset.mem_insert, Finset.mem_singleton] at ha hb hc hd
  rcases ha with rfl | rfl <;> rcases hb with rfl | rfl <;> tauto

lemma build_distinct {g : Graph} {t : ℚ} {m : ℕ} (hwf : g.WF) :
    ∀ d, ((buildComplex g t m).dims d).Pairwise (fun s s' => s.toFinset ≠ s'.toFinset) := by
  intro d
  match d with
  | 0 =>
    rw [build_dims_zero]
    rw [List.pairwise_map]
    exact hwf.1.imp (fun hne h => hne (by simpa using h))
  | 1 =>
    rw [build_dims_one]
    rw [List.pairwise_map]
    refine (hwf.2.2.sublist (List.filter_sublist _)).imp_of_mem ?_
    intro e f he hf hnef h
    have hu : e.u ≠ e.v := (hwf.2.1 e (List.mem_of_mem_filter he)).2.2
    have h' : ({e.u, e.v} : Finset ℕ) = {f.u, f.v} := by simpa using h
    rcases pair_finset_eq hu h' with ⟨h1, h2⟩ | ⟨h1, h2⟩
    · exact hnef.1 ⟨h1, h2⟩
    · exact hnef.2 ⟨h1, h2⟩
  | (n + 2) =>
    by_cases hm : n + 2 ≤ m
    · rw [build_dims_ge2 g t m (by omega) hm]
      unfold buildDim
      rw [List.pairwise_map]
      have hnd : (g.nodes.sublistsLen (n + 3)).Nodup :=
        (List.nodup_sublists'.mpr hwf.1).sublist (List.sublistsLen_sublist_sublists' _ _)
      refine ((hnd.sublist (List.filter_sublist _)).imp_of_mem ?_)
      intro c c' hc hc' hne h
      rw [sortList_toFinset, sortList_toFinset] at h
      have hcsub := (List.mem_sublistsLen.mp (List.mem_of_mem_filter hc)).1
      have hcsub' := (List.mem_sublistsLen.mp (List.mem_of_mem_filter hc')).1
      exact hne (sublist_eq_of_toFinset_eq hwf.1 hcsub hcsub' h)
    · rw [build_dims_off g t m (by omega) (by omega)]
      simp

/-- Face closure of the built complex: removing any vertex from a stored
simplex of dimension `d+1` yields the vertex set of some stored simplex of
dimension `d`. -/
lemma build_face_closed {g : Graph} {t : ℚ} {m : ℕ} (hwf : g.WF) :
    ∀ d, ∀ s ∈ (buildComplex g t m).dims (d + 1), ∀ v ∈ s,
      ∃ tl ∈ (buildComplex g t m).dims d, tl.toFinset = s.toFinset.erase v := by
  intro d s hs v hv
  match d with
  | 0 =>
    rw [build_dims_one] at hs
    obtain ⟨e, he, rfl⟩ := List.mem_map.mp hs
    have huv : e.u ≠ e.v := (hwf.2.1 e (List.mem_of_mem_filter he)).2.2
    have hmem := hwf.2.1 e (List.mem_of_mem_filter he)
    rcases List.mem_cons.mp hv with rfl | hv'
    · refine ⟨[e.v], ?_, ?_⟩
      · rw [build_dims_zero]
        exact List.mem_map.mpr ⟨e.v, hmem.2.1, rfl⟩
      · ext a
        simp only [List.toFinset_cons, List.toFinset_nil, insert_emptyc_eq,
          Finset.mem_erase, Finset.mem_insert, Finset.mem_singleton]
        constructor
        · rintro rfl
          exact ⟨fun h => huv h.symm, Or.inr rfl⟩
        · rintro ⟨hne, rfl | rfl⟩
          · exact absurd rfl hne
          · rfl
    · rw [List.mem_singleton] at hv'
      subst hv'
      refine ⟨[e.u], ?_, ?_⟩
      · rw [build_dims_zero]
        exact List.mem_map.mpr ⟨e.u, hmem.1, rfl⟩
      · ext a
        simp only [List.toFinset_cons, List.toFinset_nil, insert_emptyc_eq,
          Finset.mem_erase, Finset.mem_insert, Finset.mem_singleton]
        constructor
        · rintro rfl
          exact ⟨huv, Or.inl rfl⟩
        · rintro ⟨hne, rfl | rfl⟩
          · rfl
          · exact absurd rfl hne
  | (k + 1) =>
    by_cases hm : k + 2 ≤ m
    · rw [build_dims_ge2 g t m (by omega) hm] at hs
      obtain ⟨c, ⟨hsub, hlen⟩, hcond, rfl⟩ := mem_buildDim.mp hs
      have hcnd : c.Nodup := hsub.nodup hwf.1
      have hvc : v ∈ c := sortList_mem_iff.mp hv
      rw [Bool.and_eq_true, pairsOf_all_iff, pairsOf_all_iff] at hcond
      -- the candidate face: `c` with `v` erased
      have hesub : List.Sublist (c.erase v) c := c.erase_sublist v
      have hPW : (c.erase v).Pairwise (fun a b => g.hasEdgeW t a b = true) :=
        hcond.2.sublist hesub
      have helen : (c.erase v).length = k + 2 := by
        rw [List.length_erase_of_mem hvc, hlen]
        omega
      have heset : (c.erase v).toFinset = c.toFinset.erase v := by
        ext a
        simp [hcnd.mem_erase_iff, Finset.mem_erase, and_comm]
      match k with
      | 0 =>
        -- the face is an edge: extract the witness edge found by `has_edge`
        obtain ⟨a, b, hab⟩ : ∃ a b, c.erase v = [a, b] := by
          match hcl : c.erase v with
          | [a, b] => exact ⟨a, b, rfl⟩
          | [] | [_] | _ :: _ :: _ :: _ => (rw [hcl] at helen; simp at helen)
        rw [hab] at hPW
        have hW : g.hasEdgeW t a b = true := by
          rw [List.pairwise_cons] at hPW
          exact hPW.1 b (by simp)
        rw [Graph.hasEdgeW, Bool.and_eq_true] at hW
        have hfind : ∃ e, g.edges.find?
            (fun e => decide ((e.u = a ∧ e.v = b) ∨ (e.u = b ∧ e.v = a))) = some e := by
          rw [Graph.hasEdge, List.any_eq_true] at hW
          obtain ⟨e, he, hpe⟩ := hW.1
          rcases hfe : g.edges.find?
              (fun e => decide ((e.u = a ∧ e.v = b) ∨ (e.u = b ∧ e.v = a))) with _ | e'
          · exact absurd hpe (by simpa using List.find?_eq_none.mp hfe e he)
          · exact ⟨e', hfe⟩
        obtain ⟨e, hfe⟩ := hfind
        have heg : e ∈ g.edges := List.mem_of_find?_eq_some hfe
        have hpe : (e.u = a ∧ e.v = b) ∨ (e.u = b ∧ e.v = a) := by
          simpa using List.find?_some hfe
        have hwt : t ≤ attrGet e.attrs "weight" 1 := by
          have := of_decide_eq_true hW.2
          rw [Graph.weightOf, Graph.edgeAttrs, hfe] at this
          exact this
        refine ⟨[e.u, e.v], ?_, ?_⟩
        · rw [build_dims_one]
          exact List.mem_map.mpr ⟨e, List.mem_filter.mpr ⟨heg, by simpa using hwt⟩, rfl⟩
        · rw [sortList_toFinset, ← heset, hab]
          rcases hpe with ⟨rfl, rfl⟩ | ⟨rfl, rfl⟩
          · simp
          · ext x
            simp only [List.toFinset_cons, List.toFinset_nil, insert_emptyc_eq,
              Finset.mem_insert, Finset.mem_singleton]
            tauto
      | k' + 1 =>
        refine ⟨sortList (c.erase v), ?_, ?_⟩
        · rw [build_dims_ge2 g t m (by omega) (by omega)]
          refine mem_buildDim.mpr ⟨c.erase v, ⟨hesub.trans hsub, helen⟩, ?_, rfl⟩
          rw [Bool.and_eq_true, pairsOf_all_iff, pairsOf_all_iff]
          exact ⟨hcond.1.sublist hesub, hPW⟩
        · rw [sortList_toFinset, heset, sortList_toFinset]
    · rw [build_dims_off g t m (by omega) (by omega)] at hs
      cases hs

/-! ### Orientation-sign combinatorics -/

lemma countP_eq_card_filter {l : List ℕ} (hn : l.Nodup) (P : ℕ → Prop) [DecidablePred P] :
    l.countP (fun w => decide (P w)) = (l.toFinset.filter P).card := by
  rw [List.countP_eq_length_filter, ← List.toFinset_card_of_nodup (hn.filter _)]
  congr 1
  ext a
  simp [List.mem_filter]

lemma idxIn_eq_posIn {l : List ℕ} (hs : l.Sorted (· < ·)) {v : ℕ} (hv : v ∈ l) :
    idxIn l v = posIn l.toFinset v := by
  rw [idxIn_eq_countP hs hv, posIn, countP_eq_card_filter hs.nodup]

lemma sum_idx_eq_posSum {σ τ : List ℕ} (hσ : σ.Sorted (· < ·)) (hτ : τ.Nodup)
    (hsub : ∀ v ∈ τ, v ∈ σ) :
    (τ.map (idxIn σ)).sum = posSum σ.toFinset τ.toFinset := by
  have h1 : τ.map (idxIn σ) = τ.map (fun v => posIn σ.toFinset v) :=
    List.map_congr_left (fun v hv => idxIn_eq_posIn hσ (hsub v hv))
  rw [h1, posSum, ← List.sum_toFinset _ hτ]

lemma orientationSign_eq {σ τ : List ℕ} (hσ : σ.Sorted (· < ·)) (hτ : τ.Nodup)
    (hsub : ∀ v ∈ τ, v ∈ σ) :
    orientationSign σ τ = (-1 : ℤ) ^ posSum σ.toFinset τ.toFinset := by
  rw [orientationSign, sum_idx_eq_posSum hσ hτ hsub]

lemma posIn_insert {s : Finset ℕ} {a : ℕ} (ha : a ∉ s) (v : ℕ) :
    posIn (insert a s) v = posIn s v + if a < v then 1 else 0 := by
  unfold posIn
  rw [Finset.filter_insert]
  by_cases h : a < v
  · rw [if_pos h, if_pos h,
      Finset.card_insert_of_not_mem (fun hc => ha (Finset.mem_of_mem_filter _ hc))]
  · rw [if_neg h, if_neg h, add_zero]

lemma posSum_insert_right {A B : Finset ℕ} {v : ℕ} (hv : v ∉ B) :
    posSum A (insert v B) = posIn A v + posSum A B := by
  unfold posSum
  rw [Finset.sum_insert hv]

lemma posSum_insert_left {A B : Finset ℕ} {a : ℕ} (ha : a ∉ A) :
    posSum (insert a A) B = posSum A B + (B.filter (fun v => a < v)).card := by
  unfold posSum
  rw [Finset.sum_congr rfl (fun v _ => posIn_insert ha v), Finset.sum_add_distrib]
  congr 1
  simp [Finset.sum_boole]

lemma posIn_add_gtCard {R : Finset ℕ} {x : ℕ} (hx : x ∉ R) :
    posIn R x + (R.filter (fun v => x < v)).card = R.card := by
  unfold posIn
  have h := Finset.filter_card_add_filter_neg_card_eq_card (s := R) (p := (· < x))
  have he : R.filter (fun v => ¬ v < x) = R.filter (fun v => x < v) := by
    apply Finset.filter_congr
    intro v hv
    have hvx : v ≠ x := fun e => hx (e ▸ hv)
    simp only [not_lt, eq_iff_iff]
    exact ⟨fun h' => lt_of_le_of_ne h' (Ne.symm hvx), le_of_lt⟩
  rw [← he]
  exact h

lemma exponents_odd {R : Finset ℕ} {x y : ℕ} (hx : x ∉ R) (hy : y ∉ R) (hxy : x ≠ y) :
    Odd (posSum (insert x (insert y R)) (insert x R) + posSum (insert x R) R +
         (posSum (insert x (insert y R)) (insert y R) + posSum (insert y R) R)) := by
  have hxns : x ∉ insert y R := by simp [hx, hxy]
  have hyns : y ∉ insert x R := by simp [hy, Ne.symm hxy]
  have hA : insert x (insert y R) = insert y (insert x R) := Finset.Insert.comm x y R
  have hPAx : posIn (insert x (insert y R)) x = posIn R x + (if y < x then 1 else 0) := by
    rw [posIn_insert hxns, if_neg (lt_irrefl x), add_zero, posIn_insert hy]
  have hPAy : posIn (insert x (insert y R)) y = posIn R y + (if x < y then 1 else 0) := by
    rw [hA, posIn_insert hyns, if_neg (lt_irrefl y), add_zero, posIn_insert hx]
  have hPAR : posSum (insert x (insert y R)) R =
      posSum R R + (R.filter (fun v => y < v)).card + (R.filter (fun v => x < v)).card := by
    rw [posSum_insert_left hxns, posSum_insert_left hy]
  have h1 := posSum_insert_right (A := insert x (insert y R)) hx
  have h2 := posSum_insert_left (B := R) hx
  have h3 := posSum_insert_right (A := insert x (insert y R)) hy
  have h4 := posSum_insert_left (B := R) hy
  have hcx := posIn_add_gtCard hx
  have hcy := posIn_add_gtCard hy
  rw [h1, h3, h2, h4, hPAx, hPAy, hPAR, Nat.odd_iff]
  rcases hxy.lt_or_lt with hlt | hlt
  · rw [if_pos hlt, if_neg (not_lt_of_gt hlt)]
    omega
  · rw [if_neg (not_lt_of_gt hlt), if_pos hlt]
    omega

lemma neg_one_pow_sum_zero {a b : ℕ} (h : Odd (a + b)) :
    ((-1 : ℤ) ^ a) + ((-1 : ℤ) ^ b) = 0 := by
  rcases Nat.even_or_odd a with ha | ha
  · have hb : Odd b := by
      rcases Nat.even_or_odd b with hb | hb
      · exact absurd (ha.add hb) (Nat.not_even_iff_odd.mpr h)
      · exact hb
    rw [ha.neg_one_pow, hb.neg_one_pow]
    ring
  · have hb : Even b := by
      rcases Nat.even_or_odd b with hb | hb
      · exact hb
      · exact absurd (ha.add_odd hb) (Nat.not_even_iff_odd.mpr h)
    rw [ha.neg_one_pow, hb.neg_one_pow]
    ring

lemma signs_cancel {σ τ₁ τ₂ ρ : List ℕ} {x y : ℕ}
    (hσ : σ.Sorted (· < ·)) (hτ₁ : τ₁.Sorted (· < ·)) (hτ₂ : τ₂.Sorted (· < ·))
    (hρ : ρ.Nodup)
    (hx : x ∉ ρ.toFinset) (hy : y ∉ ρ.toFinset) (hxy : x ≠ y)
    (hσF : σ.toFinset = insert x (insert y ρ.toFinset))
    (hτ₁F : τ₁.toFinset = insert x ρ.toFinset)
    (hτ₂F : τ₂.toFinset = insert y ρ.toFinset) :
    orientationSign σ τ₁ * orientationSign τ₁ ρ
      + orientationSign σ τ₂ * orientationSign τ₂ ρ = 0 := by
  have hsub1 : ∀ v ∈ τ₁, v ∈ σ := by
    intro v hv
    have hvF : v ∈ τ₁.toFinset := List.mem_toFinset.mpr hv
    rw [hτ₁F] at hvF
    have : v ∈ σ.toFinset := by
      rw [hσF]
      simp only [Finset.mem_insert] at hvF ⊢
      tauto
    simpa using this
  have hsub2 : ∀ v ∈ τ₂, v ∈ σ := by
    intro v hv
    have hvF : v ∈ τ₂.toFinset := List.mem_toFinset.mpr hv
    rw [hτ₂F] at hvF
    have : v ∈ σ.toFinset := by
      rw [hσF]
      simp only [Finset.mem_insert] at hvF ⊢
      tauto
    simpa using this
  have hsubρ1 : ∀ v ∈ ρ, v ∈ τ₁ := by
    intro v hv
    have : v ∈ τ₁.toFinset := by
      rw [hτ₁F]
      simp [List.mem_toFinset.mpr hv]
    simpa using this
  have hsubρ2 : ∀ v ∈ ρ, v ∈ τ₂ := by
    intro v hv
    have : v ∈ τ₂.toFinset := by
      rw [hτ₂F]
      simp [List.mem_toFinset.mpr hv]
    simpa using this
  rw [orientationSign_eq hσ hτ₁.nodup hsub1, orientationSign_eq hτ₁ hρ hsubρ1,
      orientationSign_eq hσ hτ₂.nodup hsub2, orientationSign_eq hτ₂ hρ hsubρ2,
      ← pow_add, ← pow_add, hσF, hτ₁F, hτ₂F]
  exact neg_one_pow_sum_zero (exponents_odd hx hy hxy)

/-- Over a complex built from a graph whose edges are all reported with
ascending endpoints, every entry of the composition `δ^{p+1} @ δ^p`
vanishes: the two faces of a coface that contain a given codimension-2
face contribute opposite products of orientation signs. -/
lemma compose_entry_zero {g : Graph} {t : ℚ} {m : ℕ} (hwf : g.WF)
    (hes : ∀ e ∈ g.edges, e.u < e.v) {p : ℕ} {σ ρ : List ℕ}
    (hσ : σ ∈ (buildComplex g t m).dims (p + 2))
    (hρ : ρ ∈ (buildComplex g t m).dims p) :
    (((buildComplex g t m).dims (p + 1)).map (fun τ =>
        (if subsetB τ σ then orientationSign σ τ else 0) *
        (if subsetB ρ τ then orientationSign τ ρ else 0))).sum = 0 := by
  set c := buildComplex g t m with hcdef
  have hσs : σ.Sorted (· < ·) := build_sorted hwf hes _ σ hσ
  have hρn : ρ.Nodup := build_nodup hwf _ ρ hρ
  by_cases hsub : ρ.toFinset ⊆ σ.toFinset
  case neg =>
    apply List.sum_eq_zero
    intro z hz
    obtain ⟨τ, hτ, rfl⟩ := List.mem_map.mp hz
    by_cases h1 : subsetB τ σ
    · by_cases h2 : subsetB ρ τ
      · exact absurd ((subsetB_iff.mp h2).trans (subsetB_iff.mp h1)) hsub
      · simp [h2]
    · simp [h1]
  case pos =>
    have hσl : σ.length = p + 3 := build_length _ σ hσ
    have hρl : ρ.length = p + 1 := build_length _ ρ hρ
    have hσcard : σ.toFinset.card = p + 3 := by
      rw [List.toFinset_card_of_nodup hσs.nodup, hσl]
    have hρcard : ρ.toFinset.card = p + 1 := by
      rw [List.toFinset_card_of_nodup hρn, hρl]
    have hsd : (σ.toFinset \ ρ.toFinset).card = 2 := by
      rw [Finset.card_sdiff hsub, hσcard, hρcard]
      omega
    obtain ⟨x, y, hxy, hset⟩ := Finset.card_eq_two.mp hsd
    have hxmem : x ∈ σ.toFinset ∧ x ∉ ρ.toFinset := by
      have : x ∈ σ.toFinset \ ρ.toFinset := by rw [hset]; simp
      exact Finset.mem_sdiff.mp this
    have hymem : y ∈ σ.toFinset ∧ y ∉ ρ.toFinset := by
      have : y ∈ σ.toFinset \ ρ.toFinset := by rw [hset]; simp
      exact Finset.mem_sdiff.mp this
    have hσF : σ.toFinset = insert x (insert y ρ.toFinset) := by
      have hu : ρ.toFinset ∪ (σ.toFinset \ ρ.toFinset) = σ.toFinset :=
        Finset.union_sdiff_of_subset hsub
      rw [hset] at hu
      rw [← hu]
      ext a
      simp only [Finset.mem_union, Finset.mem_insert, Finset.mem_singleton]
      tauto
    have hxσl : x ∈ σ := List.mem_toFinset.mp hxmem.1
    have hyσl : y ∈ σ := List.mem_toFinset.mp hymem.1
    obtain ⟨τ₁, hτ₁mem, hτ₁F⟩ := build_face_closed hwf (p + 1) σ hσ y hyσl
    obtain ⟨τ₂, hτ₂mem, hτ₂F⟩ := build_face_closed hwf (p + 1) σ hσ x hxσl
    have hτ₁s : τ₁.Sorted (· < ·) := build_sorted hwf hes _ τ₁ hτ₁mem
    have hτ₂s : τ₂.Sorted (· < ·) := build_sorted hwf hes _ τ₂ hτ₂mem
    have hτ₁F' : τ₁.toFinset = insert x ρ.toFinset := by
      rw [hτ₁F, hσF]
      ext a
      simp only [Finset.mem_erase, Finset.mem_insert]
      constructor
      · rintro ⟨hay, rfl | rfl | haρ⟩
        · exact Or.inl rfl
        · exact absurd rfl hay
        · exact Or.inr haρ
      · rintro (rfl | haρ)
        · exact ⟨hxy, Or.inl rfl⟩
        · exact ⟨fun e => hymem.2 (e ▸ haρ), Or.inr (Or.inr haρ)⟩
    have hτ₂F' : τ₂.toFinset = insert y ρ.toFinset := by
      rw [hτ₂F, hσF]
      ext a
      simp only [Finset.mem_erase, Finset.mem_insert]
      constructor
      · rintro ⟨hax, rfl | rfl | haρ⟩
        · exact absurd rfl hax
        · exact Or.inl rfl
        · exact Or.inr haρ
      · rintro (rfl | haρ)
        · exact ⟨Ne.symm hxy, Or.inr (Or.inl rfl)⟩
        · exact ⟨fun e => hxmem.2 (e ▸ haρ), Or.inr (Or.inr haρ)⟩
    have hτne : τ₁ ≠ τ₂ := by
      intro e
      have hxin : x ∈ τ₂.toFinset := by rw [← e, hτ₁F']; simp
      rw [hτ₂F'] at hxin
      simp only [Finset.mem_insert] at hxin
      rcases hxin with h | h
      · exact hxy h
      · exact hxmem.2 h
    have hzero : ∀ τ ∈ c.dims (p + 1), τ ≠ τ₁ → τ ≠ τ₂ →
        (if subsetB τ σ then orientationSign σ τ else 0) *
        (if subsetB ρ τ then orientationSign τ ρ else 0) = 0 := by
      intro τ hτ hne1 hne2
      by_cases h1 : subsetB τ σ
      · by_cases h2 : subsetB ρ τ
        · exfalso
          have hths : τ.toFinset ⊆ σ.toFinset := subsetB_iff.mp h1
          have hrt : ρ.toFinset ⊆ τ.toFinset := subsetB_iff.mp h2
          have hτn : τ.Nodup := build_nodup hwf _ τ hτ
          have hτl : τ.length = p + 2 := build_length _ τ hτ
          have hτcard : τ.toFinset.card = p + 2 := by
            rw [List.toFinset_card_of_nodup hτn, hτl]
          have hsd1 : (σ.toFinset \ τ.toFinset).card = 1 := by
            rw [Finset.card_sdiff hths, hσcard, hτcard]
            omega
          obtain ⟨z, hz⟩ := Finset.card_eq_one.mp hsd1
          have hzmem : z ∈ σ.toFinset ∧ z ∉ τ.toFinset :=
            Finset.mem_sdiff.mp (hz ▸ (by simp : z ∈ ({z} : Finset ℕ)))
          have hτF : τ.toFinset = σ.toFinset.erase z := by
            ext a
            simp only [Finset.mem_erase]
            constructor
            · intro ha
              exact ⟨fun e => hzmem.2 (e ▸ ha), hths ha⟩
            · rintro ⟨haz, haσ⟩
              by_contra hcon
              have hmem : a ∈ σ.toFinset \ τ.toFinset := Finset.mem_sdiff.mpr ⟨haσ, hcon⟩
              rw [hz] at hmem
              exact haz (by simpa using hmem)
          have hzρ : z ∉ ρ.toFinset := fun hc => hzmem.2 (hrt hc)
          have hzxy : z = x ∨ z = y := by
            have hmem := hσF ▸ hzmem.1
            simp only [Finset.mem_insert] at hmem
            rcases hmem with h | h | h
            · exact Or.inl h
            · exact Or.inr h
            · exact absurd h hzρ
          have hτs : τ.Sorted (· < ·) := build_sorted hwf hes _ τ hτ
          rcases hzxy with rfl | rfl
          · exact hne2 (sorted_lists_eq hτs hτ₂s (by rw [hτF, ← hτ₂F]))
          · exact hne1 (sorted_lists_eq hτs hτ₁s (by rw [hτF, ← hτ₁F]))
        · simp [h2]
      · simp [h1]
    have hLnd : (c.dims (p + 1)).Nodup :=
      (build_distinct hwf (p + 1)).imp (fun h e => h (congrArg List.toFinset e))
    rw [← List.sum_toFinset _ hLnd]
    have hsubpair : ({τ₁, τ₂} : Finset (List ℕ)) ⊆ (c.dims (p + 1)).toFinset := by
      intro a ha
      simp only [Finset.mem_insert, Finset.mem_singleton] at ha
      rcases ha with rfl | rfl
      · exact List.mem_toFinset.mpr hτ₁mem
      · exact List.mem_toFinset.mpr hτ₂mem
    rw [← Finset.sum_subset hsubpair (fun τ hτm hτnp => by
      have hτL : τ ∈ c.dims (p + 1) := List.mem_toFinset.mp hτm
      simp only [Finset.mem_insert, Finset.mem_singleton, not_or] at hτnp
      exact hzero τ hτL hτnp.1 hτnp.2)]
    rw [Finset.sum_pair hτne]
    have h1a : subsetB τ₁ σ = true := subsetB_iff.mpr (by
      rw [hτ₁F', hσF]
      intro a ha
      simp only [Finset.mem_insert] at ha ⊢
      tauto)
    have h1b : subsetB ρ τ₁ = true := subsetB_iff.mpr (by
      rw [hτ₁F']
      exact Finset.subset_insert x ρ.toFinset)
    have h2a : subsetB τ₂ σ = true := subsetB_iff.mpr (by
      rw [hτ₂F', hσF]
      intro a ha
      simp only [Finset.mem_insert] at ha ⊢
      tauto)
    have h2b : subsetB ρ τ₂ = true := subsetB_iff.mpr (by
      rw [hτ₂F']
      exact Finset.subset_insert y ρ.toFinset)
    rw [if_pos h1a, if_pos h1b, if_pos h2a, if_pos h2b]
    exact signs_cancel hσs hτ₁s hτ₂s hρn hxmem.2 hymem.2 hxy hσF hτ₁F' hτ₂F'

lemma matMul_data (A B : Mat) :
    (matMul A B).data = A.data.map (fun r => (List.range B.cols).map (dotCol r B.data)) :=
  rfl

lemma coboundaryMat_pos {c : SComplex} {p : ℕ} (hk : c.hasKey p ∧ c.hasKey (p + 1)) :
    coboundaryMat c p =
      { rows := (c.dims (p + 1)).length
        cols := (c.dims p).length
        data := (c.dims (p + 1)).map (fun σ => (c.dims p).map (fun τ =>
            if subsetB τ σ then orientationSign σ τ else 0)) } := by
  rw [coboundaryMat, if_pos hk]

lemma coboundaryMat_neg {c : SComplex} {p : ℕ} (hk : ¬(c.hasKey p ∧ c.hasKey (p + 1))) :
    coboundaryMat c p = { rows := 0, cols := 0, data := [] } := by
  rw [coboundaryMat, if_neg hk]

/-- The composition of consecutive coboundary matrices of a built complex
is entrywise zero, provided every graph edge is reported with its
endpoints in ascending order (so that every stored 1-simplex is in
canonical sorted order). -/
lemma delta_delta_zero {g : Graph} {t : ℚ} {m : ℕ} (hwf : g.WF)
    (hes : ∀ e ∈ g.edges, e.u < e.v) (p : ℕ) :
    matIsZero (matMul (coboundaryMat (buildComplex g t m) (p + 1))
                      (coboundaryMat (buildComplex g t m) p)) := by
  set c := buildComplex g t m with hcdef
  intro r hr x hx
  rw [matMul_data] at hr
  obtain ⟨ra, hra, rfl⟩ := List.mem_map.mp hr
  obtain ⟨i, hi, rfl⟩ := List.mem_map.mp hx
  rw [List.mem_range] at hi
  by_cases hkA : c.hasKey (p + 1) ∧ c.hasKey (p + 1 + 1)
  case neg =>
    rw [coboundaryMat_neg hkA] at hra
    cases hra
  case pos =>
    rw [coboundaryMat_pos hkA] at hra
    simp only at hra
    obtain ⟨σ, hσ, rfl⟩ := List.mem_map.mp hra
    have hkB : c.hasKey p ∧ c.hasKey (p + 1) :=
      ⟨le_trans (by omega) hkA.1, hkA.1⟩
    rw [coboundaryMat_pos hkB] at hi ⊢
    simp only at hi ⊢
    rw [dotCol, List.zip_map', List.map_map]
    have hrw : ∀ τ ∈ c.dims (p + 1),
        ((fun q : ℤ × List ℤ => q.1 * q.2.getD i 0) ∘ (fun τ =>
          (if subsetB τ σ then orientationSign σ τ else 0,
           (c.dims p).map (fun ρ => if subsetB ρ τ then orientationSign τ ρ else 0)))) τ =
        (if subsetB τ σ then orientationSign σ τ else 0) *
          (if subsetB (c.dims p)[i] τ then orientationSign τ (c.dims p)[i] else 0) := by
      intro τ hτ
      simp only [Function.comp]
      congr 1
      rw [List.getD_eq_getElem _ _ (by simpa using hi), List.getElem_map]
    rw [List.map_congr_left hrw]
    exact compose_entry_zero hwf hes hσ (List.getElem_mem hi)

/-! ### Utility lemmas: maxima, lookups, filterMap shapes -/

lemma listMaxQ_mem : ∀ {l : List ℚ} {m : ℚ}, listMaxQ l = some m → m ∈ l := by
  intro l
  induction l with
  | nil => intro m h; cases h
  | cons x xs ih =>
    intro m h
    rw [listMaxQ] at h
    rcases hxs : listMaxQ xs with _ | m'
    · rw [hxs] at h
      cases h
      simp
    · rw [hxs] at h
      cases h
      rcases max_choice x m' with he | he
      · rw [he]
        simp
      · rw [he]
        exact List.mem_cons_of_mem _ (ih hxs)

lemma listMaxQ_eq_none {l : List ℚ} : listMaxQ l = none ↔ l = [] := by
  constructor
  · intro h
    rcases l with _ | ⟨x, xs⟩
    · rfl
    · rw [listMaxQ] at h
      rcases hq : listMaxQ xs with _ | m
      · rw [hq] at h
        cases h
      · rw [hq] at h
        cases h
  · rintro rfl
    rfl

lemma listMaxQ_ge : ∀ {l : List ℚ} {m : ℚ}, listMaxQ l = some m → ∀ x ∈ l, x ≤ m := by
  intro l
  induction l with
  | nil => intro m h; cases h
  | cons x xs ih =>
    intro m h y hy
    rw [listMaxQ] at h
    rcases hxs : listMaxQ xs with _ | m'
    · rw [hxs] at h
      cases h
      rcases List.mem_cons.mp hy with rfl | hy'
      · exact le_refl y
      · rw [listMaxQ_eq_none.mp hxs] at hy'
        cases hy'
    · rw [hxs] at h
      cases h
      rcases List.mem_cons.mp hy with rfl | hy'
      · exact le_max_left _ _
      · exact le_trans (ih hxs y hy') (le_max_right _ _)

lemma listMaxQ_isSome {l : List ℚ} (h : l ≠ []) : ∃ m, listMaxQ l = some m := by
  rcases l with _ | ⟨x, xs⟩
  · exact absurd rfl h
  · rw [listMaxQ]
    rcases listMaxQ xs with _ | m'
    · exact ⟨x, rfl⟩
    · exact ⟨max x m', rfl⟩

lemma attrGet_of_none {a : Attrs} {k : String} (h : assocLookup k a = none) (d : ℚ) :
    attrGet a k d = d := by
  induction a with
  | nil => rfl
  | cons q rest ih =>
    rcases q with ⟨c, v⟩
    simp only [assocLookup] at h
    simp only [attrGet]
    by_cases hk : c = k
    · rw [if_pos hk] at h
      cases h
    · rw [if_neg hk] at h
      rw [if_neg hk]
      exact ih h

lemma hasEdge_comm (g : Graph) (a b : ℕ) : g.hasEdge a b = g.hasEdge b a := by
  unfold Graph.hasEdge
  congr 1
  funext e
  apply decide_eq_decide.mpr
  tauto

lemma filterMap_eq_filter_map {α β : Type} (f : α → Option β) (p : α → Bool) (g : α → β)
    (h : ∀ a, f a = if p a then some (g a) else none) (l : List α) :
    l.filterMap f = (l.filter p).map g := by
  induction l with
  | nil => rfl
  | cons x xs ih =>
    rw [List.filterMap_cons, List.filter_cons, h x]
    by_cases hp : p x
    · simp only [hp, if_pos, if_true]
      rw [List.map_cons, ih]
    · simp only [hp, if_false, Bool.false_eq_true]
      rw [ih]

lemma pairsOf_ne_nil {s : List ℕ} (h : 2 ≤ s.length) : pairsOf s ≠ [] := by
  rcases s with _ | ⟨x, _ | ⟨y, rest⟩⟩
  · simp at h
  · simp at h
  · simp [pairsOf]

lemma filterMap_if_all {α β : Type} (p : α → Bool) (f : α → β) {l : List α}
    (h : ∀ a ∈ l, p a = true) :
    l.filterMap (fun a => if p a then some (f a) else none) = l.map f := by
  induction l with
  | nil => rfl
  | cons x xs ih =>
    rw [List.filterMap_cons, List.map_cons, if_pos (h x (by simp))]
    rw [ih (fun a ha => h a (List.mem_cons_of_mem _ ha))]

lemma simplexEntry_all_edges {g : Graph} (param : String) {s : List ℕ}
    (hp : ∀ q ∈ pairsOf s, g.hasEdge q.1 q.2 = true) (hne : pairsOf s ≠ []) :
    simplexEntry g param s = some (s, allPairsMax g param s) := by
  unfold simplexEntry allPairsMax
  rw [filterMap_if_all _ _ hp]
  have hne' : (pairsOf s).map (fun q => attrGet (g.edgeAttrs q.1 q.2) param 1) ≠ [] := by
    simpa using hne
  obtain ⟨mx, hmx⟩ := listMaxQ_isSome hne'
  simp [hmx]

/-! ### Claim theorems -/

/-- C1, counterexample: the claim "the composition of the coboundary
matrices for dimensions p+1 and p is the zero matrix" fails on the code as
stated. On the triangle built after `G.add_edge(1,0); G.add_edge(1,2);
G.add_edge(0,2)` the first 1-simplex is stored as `[1, 0]`, and the
shape-compatible composition `δ¹ @ δ⁰` has entries `±2`. -/
theorem C1_counterexample :
    (coboundaryMat (buildComplex gRev 0 2) 1).cols
        = (coboundaryMat (buildComplex gRev 0 2) 0).rows ∧
    ¬ matIsZero (matMul (coboundaryMat (buildComplex gRev 0 2) 1)
                        (coboundaryMat (buildComplex gRev 0 2) 0)) := by
  decide

/-- C1, amended: for every complex built by `build_complex_from_graph`
from a well-formed graph **whose edges are all reported with endpoints in
ascending order** (so every stored 1-simplex is in canonical sorted
order), and for every dimension p, the composition of the coboundary
matrices for dimensions p+1 and p is the zero matrix, the entry signs
being `(-1)` raised to the sum of the zero-based positions of the face's
vertices within the coface's stored ordering. -/
theorem C1_amended (g : Graph) (t : ℚ) (m : ℕ) (hwf : g.WF)
    (hes : ∀ e ∈ g.edges, e.u < e.v) (p : ℕ) :
    matIsZero (matMul (coboundaryMat (buildComplex g t m) (p + 1))
                      (coboundaryMat (buildComplex g t m) p)) :=
  delta_delta_zero hwf hes p

/-- C1, witness: the amended theorem applied to the sorted-edge triangle
at dimension 0. -/
theorem C1_amended_witness :
    gTri.WF ∧ (∀ e ∈ gTri.edges, e.u < e.v) ∧
    matIsZero (matMul (coboundaryMat (buildComplex gTri 0 2) 1)
                      (coboundaryMat (buildComplex gTri 0 2) 0)) :=
  ⟨by decide, by decide, C1_amended gTri 0 2 (by decide) (by decide) 0⟩

/-- C7, counterexample: a 1-simplex built from the edge reported as
`(1, 0)` is stored as `[1, 0]`, not in canonical sorted order, refuting
"every simplex — including every 1-simplex built from a graph edge — is
stored with its vertices in canonical sorted order". -/
theorem C7_counterexample :
    [1, 0] ∈ (buildComplex gPair 0 2).dims 1 ∧
    ¬ (([1, 0] : List ℕ).Sorted (· ≤ ·)) := by
  decide

/-- C7, amended: simplices of dimension 0 and of dimension ≥ 2 are stored
with vertices in (strictly) sorted order; 1-simplices are stored as
`[u, v]` exactly as the graph reports the edge (sorted only when the
report order is ascending); and in every dimension no two stored simplices
have the same vertex set. -/
theorem C7_amended (g : Graph) (t : ℚ) (m : ℕ) (hwf : g.WF) :
    (∀ d, d ≠ 1 → ∀ s ∈ (buildComplex g t m).dims d, s.Sorted (· < ·)) ∧
    (∀ s ∈ (buildComplex g t m).dims 1, ∃ e ∈ g.edges,
        s = [e.u, e.v] ∧ t ≤ attrGet e.attrs "weight" 1) ∧
    (∀ d, ((buildComplex g t m).dims d).Pairwise (fun s s' => s.toFinset ≠ s'.toFinset)) := by
  refine ⟨build_sorted_ne_one hwf, ?_, build_distinct hwf⟩
  intro s hs
  rw [build_dims_one] at hs
  obtain ⟨e, he, rfl⟩ := List.mem_map.mp hs
  rw [List.mem_filter] at he
  exact ⟨e, he.1, rfl, by simpa using he.2⟩

/-- C7, witness: on the reversed-edge triangle the stored 2-simplex
`[0, 1, 2]` is sorted, by the amended theorem. -/
theorem C7_amended_witness :
    [0, 1, 2] ∈ (buildComplex gRev 0 2).dims 2 ∧
    (([0, 1, 2] : List ℕ).Sorted (· < ·)) :=
  ⟨by decide, (C7_amended gRev 0 2 (by decide)).1 2 (by decide) [0, 1, 2] (by decide)⟩

/-- C8, confirmed: the built complex is face-closed — for every stored
simplex of dimension k > 0 and every subset of its vertices of one smaller
cardinality, some stored simplex of dimension k−1 has exactly that vertex
set. -/
theorem C8_theorem (g : Graph) (t : ℚ) (m : ℕ) (hwf : g.WF) (d : ℕ)
    (s : List ℕ) (hs : s ∈ (buildComplex g t m).dims (d + 1)) (F : Finset ℕ)
    (hFsub : F ⊆ s.toFinset) (hFcard : F.card = d + 1) :
    ∃ tl ∈ (buildComplex g t m).dims d, tl.toFinset = F := by
  have hn : s.Nodup := build_nodup hwf _ s hs
  have hl : s.length = d + 2 := build_length _ s hs
  have hcard : s.toFinset.card = d + 2 := by
    rw [List.toFinset_card_of_nodup hn, hl]
  have hsd : (s.toFinset \ F).card = 1 := by
    rw [Finset.card_sdiff hFsub, hcard, hFcard]
    omega
  obtain ⟨v, hv⟩ := Finset.card_eq_one.mp hsd
  have hvmem : v ∈ s.toFinset ∧ v ∉ F :=
    Finset.mem_sdiff.mp (hv ▸ (by simp : v ∈ ({v} : Finset ℕ)))
  have hF : F = s.toFinset.erase v := by
    ext a
    simp only [Finset.mem_erase]
    constructor
    · intro ha
      exact ⟨fun e => hvmem.2 (e ▸ ha), hFsub ha⟩
    · rintro ⟨hav, has⟩
      by_contra hcon
      have hmem : a ∈ s.toFinset \ F := Finset.mem_sdiff.mpr ⟨has, hcon⟩
      rw [hv] at hmem
      exact hav (by simpa using hmem)
  obtain ⟨tl, htl, htlF⟩ := build_face_closed hwf d s hs v (List.mem_toFinset.mp hvmem.1)
  exact ⟨tl, htl, by rw [htlF, ← hF]⟩

/-- C8, witness: the edge set `{0, 1}` of the stored triangle `[0, 1, 2]`
is realized by a stored 1-simplex. -/
theorem C8_witness :
    ∃ tl ∈ (buildComplex gTri 0 2).dims 1, tl.toFinset = ({0, 1} : Finset ℕ) :=
  C8_theorem gTri 0 2 (by decide) 1 [0, 1, 2] (by decide) {0, 1} (by decide) (by decide)

/-- C6, counterexample: on the single-edge graph the coboundary δ¹ has
zero rows and one column, and the kernel step raises the svds `ValueError`
instead of returning the "kernel is everything" fallback the claim
asserts. -/
theorem C6_counterexample :
    (coboundaryMat (buildComplex gEdge 0 2) 1).rows = 0 ∧
    0 < (coboundaryMat (buildComplex gEdge 0 2) 1).cols ∧
    kernelStep (buildComplex gEdge 0 2) 1 =
      .error "svds requires 1 <= k < min(A.shape)" := by
  decide

/-- C6, amended: the zero-column case does return `np.eye(0)`, the
documented fallback; but with a positive column count the kernel step
succeeds exactly when `min(shape) ≥ 2` — in particular a zero-row
coboundary with columns raises the svds error rather than returning a
fallback. -/
theorem C6_amended (c : SComplex) (p : ℕ) :
    ((coboundaryMat c p).cols = 0 → kernelStep c p = .ok (.identityBasis 0)) ∧
    (0 < (coboundaryMat c p).cols →
      (kernelStep c p = .ok (.svdNullspace (coboundaryMat c p).rows (coboundaryMat c p).cols)
        ↔ 2 ≤ min (coboundaryMat c p).rows (coboundaryMat c p).cols)) := by
  have hcond : ∀ a b : ℕ,
      ((1 ≤ min (a : ℤ) (b : ℤ) - 1 ∧ min (a : ℤ) (b : ℤ) - 1 < min (a : ℤ) (b : ℤ)) ↔
        2 ≤ min a b) := by
    intro a b
    have hc : min (a : ℤ) (b : ℤ) = ((min a b : ℕ) : ℤ) := (Nat.cast_min a b).symm
    rw [hc]
    generalize min a b = q
    omega
  constructor
  · intro h
    rw [kernelStep.eq_def, h]
    simp
  · intro h
    rw [kernelStep.eq_def, if_pos h]
    simp only
    by_cases hge : 2 ≤ min (coboundaryMat c p).rows (coboundaryMat c p).cols
    · rw [if_pos ((hcond _ _).mpr hge)]
      simp [hge]
    · rw [if_neg (fun hcon => hge ((hcond _ _).mp hcon))]
      simp [hge]

/-- C6, witness: at dimension 2 of the single-edge complex the coboundary
is the empty `(0, 0)` matrix and the kernel step returns the identity
fallback. -/
theorem C6_amended_witness :
    kernelStep (buildComplex gEdge 0 2) 2 = .ok (.identityBasis 0) :=
  (C6_amended (buildComplex gEdge 0 2) 2).1 (by decide)

/-- C9, counterexample: `get_risk_classes` called before persistence is
computed surfaces as the interpreter's generic
`AttributeError('persistence_intervals')`, not as the distinct "not
fitted" `ValueError` the claim asserts. -/
theorem C9_counterexample :
    getRiskClassesChecked sNoPersistence (1 / 10) =
      .error (.attributeError "persistence_intervals") ∧
    (PyErr.attributeError "persistence_intervals").isNotFitted = false := by
  decide

/-- C9, amended: `compute_persistent_cohomology` without a built complex
and `compute_pcr_score` without persistence intervals raise the two
distinct "not fitted" `ValueError`s, but `get_risk_classes` without
persistence intervals raises a generic `AttributeError`. -/
theorem C9_amended (s : SheafState) (param : String) (v : ℕ) (pw nw tr : ℚ)
    (hb : s.built = none) (hp : s.persistence = none) :
    computePersistentCohomologyChecked s param =
      .error (.valueError "Build complex first using build_complex_from_graph()") ∧
    computePcrScoreChecked s v pw nw =
      .error (.valueError "Compute persistent cohomology first") ∧
    getRiskClassesChecked s tr = .error (.attributeError "persistence_intervals") ∧
    (PyErr.valueError "Build complex first using build_complex_from_graph()").isNotFitted
      = true ∧
    (PyErr.valueError "Compute persistent cohomology first").isNotFitted = true ∧
    (PyErr.attributeError "persistence_intervals").isNotFitted = false := by
  unfold computePersistentCohomologyChecked computePcrScoreChecked getRiskClassesChecked
  rw [hb, hp]
  exact ⟨rfl, rfl, rfl, rfl, rfl, rfl⟩

/-- C9, witness: the amended theorem applied to the freshly initialized
state. -/
theorem C9_amended_witness :
    computePcrScoreChecked sEmpty 0 1 (1 / 2) =
      .error (.valueError "Compute persistent cohomology first") ∧
    getRiskClassesChecked sEmpty (1 / 10) =
      .error (.attributeError "persistence_intervals") :=
  ⟨(C9_amended sEmpty "weight" 0 1 (1 / 2) (1 / 10) rfl rfl).2.1,
   (C9_amended sEmpty "weight" 0 1 (1 / 2) (1 / 10) rfl rfl).2.2.1⟩

/-- C10, confirmed: `PCRScorer.fit` builds the complex at the fixed
default threshold 0.0 (its signature exposes none), so the 1-simplices are
exactly the edges whose weight (default 1) is non-negative. -/
theorem C10_theorem (g : Graph) (m : ℕ) :
    (∀ e ∈ g.edges, 0 ≤ attrGet e.attrs "weight" 1 →
      [e.u, e.v] ∈ (fitComplex g m).dims 1) ∧
    (∀ s ∈ (fitComplex g m).dims 1, ∃ e ∈ g.edges,
      s = [e.u, e.v] ∧ 0 ≤ attrGet e.attrs "weight" 1) := by
  constructor
  · intro e he hw
    rw [fitComplex, build_dims_one]
    exact List.mem_map.mpr ⟨e, List.mem_filter.mpr ⟨he, by simpa using hw⟩, rfl⟩
  · intro s hs
    rw [fitComplex, build_dims_one] at hs
    obtain ⟨e, he, rfl⟩ := List.mem_map.mp hs
    rw [List.mem_filter] at he
    exact ⟨e, he.1, rfl, by simpa using he.2⟩

/-- C10, witness: the unit-weight edge `(0, 1)` becomes a 1-simplex of the
complex `fit` builds. -/
theorem C10_witness :
    [0, 1] ∈ (fitComplex gEdge 2).dims 1 :=
  (C10_theorem gEdge 2).1 ⟨0, 1, [("weight", 1)]⟩ (by decide) (by decide)

/-- C2, counterexample: with scalar features (vertex 0 ↦ 3, edge
`(0, 1)` ↦ 5) and the default restriction function, the code's
cocycle-norm estimate is `2·|3−5| = 4` while the mean of the attached
restriction function's discrepancies is `2·(3−5) = −4`: the estimate never
invokes the restriction function. -/
theorem C2_counterexample :
    estimateCocycleNorm mEdge 0 0 (some 10) ≠ claimedCocycleNorm mEdge 0 0 (some 10) := by
  have h1 : estimateCocycleNorm mEdge 0 0 (some 10) = 4 := by
    norm_num [estimateCocycleNorm, meanOrZero, Graph.neighborsOf, gEdge, mEdge,
      Graph.edgeAttrs, attrGet, assocLookup, hardInconsistency, intervalHi,
      List.filterMap, List.find?]
  have h2 : claimedCocycleNorm mEdge 0 0 (some 10) = -4 := by
    norm_num [claimedCocycleNorm, meanOrZero, Graph.neighborsOf, gEdge, mEdge,
      Graph.edgeAttrs, attrGet, assocLookup, defaultRestriction, intervalHi,
      List.filterMap, List.find?]
  rw [h1, h2]
  norm_num

/-- C2, amended: the cocycle-norm estimate equals the mean, over the
vertex's incident edges with available features, of the **built-in**
inconsistency (`‖v‖ − |e|` for array features, `|v − e|` for scalars; the
attached restriction function is never invoked), doubled when the edge's
`'weight'` attribute lies in `[birth, death]` (or `[birth, 2·birth]` when
death is infinite), and 0 when no incident edge has available features. -/
theorem C2_amended (M : Fitted) (v : ℕ) (b : ℚ) (d : Option ℚ) :
    estimateCocycleNorm M v b d = meanCocycleNorm M v b d := by
  have hfm : (M.graph.neighborsOf v).filterMap (fun n =>
      match assocLookup v M.vertexFeatures, assocLookup (v, n) M.edgeFeatures with
      | some vf, some ef =>
        let raw := hardInconsistency vf ef
        let w := attrGet (M.graph.edgeAttrs v n) "weight" 1
        some (if b ≤ w ∧ w ≤ intervalHi b d then raw * 2 else raw)
      | _, _ => none) =
      ((M.graph.neighborsOf v).filter (fun n =>
        (assocLookup v M.vertexFeatures).isSome &&
        (assocLookup (v, n) M.edgeFeatures).isSome)).map (weightedDiscrepancy M v b d) := by
    apply filterMap_eq_filter_map
    intro n
    rcases hvf : assocLookup v M.vertexFeatures with _ | vf
    · simp [weightedDiscrepancy, hvf]
    · rcases hef : assocLookup (v, n) M.edgeFeatures with _ | ef
      · simp [weightedDiscrepancy, hvf, hef]
      · simp only [weightedDiscrepancy, hvf, hef, Option.isSome_some, Bool.and_self, if_true]
        congr 1
        by_cases hc : b ≤ attrGet (M.graph.edgeAttrs v n) "weight" 1 ∧
            attrGet (M.graph.edgeAttrs v n) "weight" 1 ≤ intervalHi b d
        · rw [if_pos hc, if_pos hc]
          ring
        · rw [if_neg hc, if_neg hc]
          ring
  have hie : ∀ (L : List ℕ) (f : ℕ → ℚ), (L.map f).isEmpty = L.isEmpty := by
    intro L f
    cases L <;> rfl
  rw [estimateCocycleNorm, meanOrZero, meanCocycleNorm, availableNeighbors, hfm]
  rw [hie, List.length_map]

set_option maxHeartbeats 1000000 in
/-- C3, counterexample: with weight pair `(1, −1)` on the fitted 4-cycle
state, vertex 0's normalized score is −9, outside `[0, 1]`. -/
theorem C3_counterexample :
    ¬ (∀ q ∈ computeAllScores mCyc 1 (-1), 0 ≤ q.2 ∧ q.2 ≤ 1) := by
  intro hall
  have hmem : ((0 : ℕ), (-9 : ℚ)) ∈ computeAllScores mCyc 1 (-1) := by
    norm_num +decide [computeAllScores, rawScores, computePcrScore, estimateCocycleNorm,
      meanOrZero, Graph.neighborsOf, gCyc, mCyc, Graph.edgeAttrs, attrGet, assocLookup,
      hardInconsistency, intervalHi, persistenceLength, listMaxQ, List.filterMap,
      List.find?]
  have hq := (hall _ hmem).1
  norm_num at hq

/-- C3, amended: whenever every raw per-vertex score is non-negative (in
general the built-in discrepancy or a negative weight can make raw scores
negative), `compute_all_scores` divides by the maximum raw score (scores
left as 0 when the maximum is 0), all returned values lie in `[0, 1]`, and
absent ties and the all-zero case the vertex with the maximum raw score
maps to exactly 1.0. -/
theorem C3_amended (M : Fitted) (pw nw : ℚ)
    (h : ∀ q ∈ rawScores M pw nw, 0 ≤ q.2) :
    (∀ q ∈ computeAllScores M pw nw, 0 ≤ q.2 ∧ q.2 ≤ 1) ∧
    (∀ v s, (v, s) ∈ rawScores M pw nw → (∀ q ∈ rawScores M pw nw, q.2 ≤ s) →
      0 < s → (v, 1) ∈ computeAllScores M pw nw) := by
  constructor
  · intro q hq
    rw [computeAllScores] at hq
    by_cases hpos : 0 < (listMaxQ ((rawScores M pw nw).map Prod.snd)).getD 1
    · rw [if_pos hpos] at hq
      obtain ⟨q', hq', rfl⟩ := List.mem_map.mp hq
      have h0 : 0 ≤ q'.2 := h q' hq'
      have hne : (rawScores M pw nw).map Prod.snd ≠ [] := by
        intro he
        rw [List.map_eq_nil_iff] at he
        rw [he] at hq'
        cases hq'
      obtain ⟨mx, hmx⟩ := listMaxQ_isSome hne
      rw [hmx] at hpos ⊢
      simp only [Option.getD_some] at hpos ⊢
      have hle : q'.2 ≤ mx := listMaxQ_ge hmx q'.2 (List.mem_map_of_mem _ hq')
      exact ⟨div_nonneg h0 (le_of_lt hpos), (div_le_one hpos).mpr hle⟩
    · rw [if_neg hpos] at hq
      refine ⟨h q hq, ?_⟩
      have hne : (rawScores M pw nw).map Prod.snd ≠ [] := by
        intro he
        rw [List.map_eq_nil_iff] at he
        rw [he] at hq
        cases hq
      obtain ⟨mx, hmx⟩ := listMaxQ_isSome hne
      rw [hmx] at hpos
      simp only [Option.getD_some] at hpos
      have hle : q.2 ≤ mx := listMaxQ_ge hmx q.2 (List.mem_map_of_mem _ hq)
      calc q.2 ≤ mx := hle
        _ ≤ 0 := not_lt.mp hpos
        _ ≤ 1 := by norm_num
  · intro v s hmem hmax hs
    rw [computeAllScores]
    have hne : (rawScores M pw nw).map Prod.snd ≠ [] := by
      intro he
      rw [List.map_eq_nil_iff] at he
      rw [he] at hmem
      cases hmem
    obtain ⟨mx, hmx⟩ := listMaxQ_isSome hne
    have hsm : s ≤ mx := listMaxQ_ge hmx s (List.mem_map.mpr ⟨(v, s), hmem, rfl⟩)
    have hms : mx ≤ s := by
      obtain ⟨q', hq', hq2⟩ := List.mem_map.mp (listMaxQ_mem hmx)
      rw [← hq2]
      exact hmax q' hq'
    have hmxs : mx = s := le_antisymm hms hsm
    rw [hmx]
    simp only [Option.getD_some]
    rw [hmxs, if_pos hs]
    have hin : ((v, s).1, (v, s).2 / s) ∈ (rawScores M pw nw).map
        (fun q => (q.1, q.2 / s)) := List.mem_map_of_mem _ hmem
    simpa [div_self (ne_of_gt hs)] using hin

set_option maxHeartbeats 1000000 in
/-- C3, witness: the amended theorem on the 4-cycle state with weight pair
`(1, 1)` (all raw scores non-negative, vertex 0 maximal with raw score
11): vertex 0 maps to exactly 1. -/
theorem C3_amended_witness :
    ((0 : ℕ), (1 : ℚ)) ∈ computeAllScores mCyc 1 1 :=
  (C3_amended mCyc 1 1 (by
    norm_num +decide [rawScores, computePcrScore, estimateCocycleNorm,
      meanOrZero, Graph.neighborsOf, gCyc, mCyc, Graph.edgeAttrs, attrGet, assocLookup,
      hardInconsistency, intervalHi, persistenceLength, List.filterMap,
      List.find?])).2 0 11
    (by
      norm_num +decide [rawScores, computePcrScore, estimateCocycleNorm,
        meanOrZero, Graph.neighborsOf, gCyc, mCyc, Graph.edgeAttrs, attrGet, assocLookup,
        hardInconsistency, intervalHi, persistenceLength, List.filterMap,
        List.find?])
    (by
      norm_num +decide [rawScores, computePcrScore, estimateCocycleNorm,
        meanOrZero, Graph.neighborsOf, gCyc, mCyc, Graph.edgeAttrs, attrGet, assocLookup,
        hardInconsistency, intervalHi, persistenceLength, List.filterMap,
        List.find?])
    (by norm_num)

/-- C4, confirmed: every stored simplex of dimension ≥ 2 of a built
complex has all of its pairwise edges present in the graph, is inserted
into the simplex tree with the maximum filtration value over those
pairwise edges, and — vacuously on built complexes, since all pairwise
edges exist — would be excluded were one of its pairwise edges missing. -/
theorem C4_theorem (g : Graph) (t : ℚ) (m : ℕ) (param : String) (_hwf : g.WF)
    (d : ℕ) (hd : 2 ≤ d) (s : List ℕ) (hs : s ∈ (buildComplex g t m).dims d) :
    (∀ q ∈ pairsOf s, g.hasEdge q.1 q.2 = true) ∧
    (s, allPairsMax g param s) ∈ simplexTreeEntries g (buildComplex g t m) param ∧
    ((∃ q ∈ pairsOf s, g.hasEdge q.1 q.2 = false) →
      ∀ f, (s, f) ∉ higherEntries g (buildComplex g t m) param) := by
  have hdm : d ≤ m := by
    by_contra hcon
    rw [build_dims_off g t m hd (by omega)] at hs
    cases hs
  have hs0 := hs
  rw [build_dims_ge2 g t m hd hdm] at hs
  obtain ⟨c, ⟨hsub, hlen⟩, hcond, rfl⟩ := mem_buildDim.mp hs
  rw [Bool.and_eq_true, pairsOf_all_iff, pairsOf_all_iff] at hcond
  have hedge : ∀ q ∈ pairsOf (sortList c), g.hasEdge q.1 q.2 = true := by
    rw [forall_pairsOf_iff (P := fun a b => g.hasEdge a b = true)]
    exact ((sortList_perm c).pairwise_iff (fun {a b} hab => by
      rw [hasEdge_comm]
      exact hab)).mpr hcond.1
  refine ⟨hedge, ?_, ?_⟩
  · have hslen : (sortList c).length = d + 1 := by
      rw [sortList_length, hlen]
    have hentry := simplexEntry_all_edges param hedge
      (pairsOf_ne_nil (by omega))
    have hmem1 : (sortList c, allPairsMax g param (sortList c)) ∈
        ((buildComplex g t m).dims d).filterMap (simplexEntry g param) :=
      List.mem_filterMap.mpr ⟨sortList c, hs0, hentry⟩
    have hrange : d ∈ List.range' 2 (m - 1) := by
      rw [List.mem_range'_1]
      omega
    have hmem2 : (sortList c, allPairsMax g param (sortList c)) ∈
        higherEntries g (buildComplex g t m) param := by
      rw [higherEntries]
      exact List.mem_flatMap.mpr ⟨d, hrange, hmem1⟩
    rw [simplexTreeEntries]
    exact List.mem_append.mpr (Or.inr hmem2)
  · rintro ⟨q, hq, hcon⟩ f hmem
    simp [hedge q hq] at hcon

/-- C4, witness: the stored triangle of the sorted-edge triangle graph is
inserted with the maximum (here 1) of its pairwise edge filtrations. -/
theorem C4_witness :
    ([0, 1, 2], allPairsMax gTri "weight" [0, 1, 2]) ∈
      simplexTreeEntries gTri (buildComplex gTri 0 2) "weight" ∧
    allPairsMax gTri "weight" [0, 1, 2] = 1 :=
  ⟨(C4_theorem gTri 0 2 "weight" (by decide) 2 (by decide) [0, 1, 2] (by decide)).2.1,
   by decide⟩

/-- C5, counterexample: an edge whose attribute dict lacks `'weight'` is
silently inserted with the default filtration 1.0 (no error is reported),
and during scoring the vertex 0 of the 4-cycle state has two neighbors but
only one carries an edge feature — the other is silently skipped and the
estimate is the mean over the single available edge. -/
theorem C5_counterexample :
    ([0, 1], (1 : ℚ)) ∈ simplexTreeEntries gNoW (buildComplex gNoW 0 2) "weight" ∧
    assocLookup "weight" ([("time", 3)] : Attrs) = none ∧
    (gCyc.neighborsOf 0).length = 2 ∧
    availableNeighbors mCyc 0 = [1] ∧
    estimateCocycleNorm mCyc 0 1 none = 10 := by
  refine ⟨by decide, by decide, by decide, by decide, ?_⟩
  norm_num +decide [estimateCocycleNorm, meanOrZero, Graph.neighborsOf, gCyc, mCyc,
    Graph.edgeAttrs, attrGet, assocLookup, hardInconsistency, intervalHi,
    List.filterMap, List.find?]

/-- C5, amended: missing data is silently defaulted or skipped, never
reported: an edge lacking the chosen filtration attribute is inserted with
the default filtration 1.0, and a vertex absent from the vertex-feature
mapping contributes a cocycle-norm estimate of 0 (every incident edge is
silently skipped). -/
theorem C5_amended (g : Graph) (c : SComplex) (param : String) (M : Fitted)
    (v : ℕ) (b : ℚ) (d : Option ℚ) (e : Edge) (he : e ∈ g.edges)
    (hnone : assocLookup param e.attrs = none)
    (hvf : assocLookup v M.vertexFeatures = none) :
    ([e.u, e.v], (1 : ℚ)) ∈ simplexTreeEntries g c param ∧
    estimateCocycleNorm M v b d = 0 := by
  constructor
  · rw [simplexTreeEntries]
    apply List.mem_append.mpr
    apply Or.inl
    apply List.mem_append.mpr
    apply Or.inr
    rw [edgeEntries]
    have heq : ([e.u, e.v], (1 : ℚ)) = ([e.u, e.v], attrGet e.attrs param 1) := by
      rw [attrGet_of_none hnone]
    rw [heq]
    exact List.mem_map_of_mem _ he
  · rw [estimateCocycleNorm]
    have hnil : (M.graph.neighborsOf v).filterMap (fun n =>
        match assocLookup v M.vertexFeatures, assocLookup (v, n) M.edgeFeatures with
        | some vf, some ef =>
          let raw := hardInconsistency vf ef
          let w := attrGet (M.graph.edgeAttrs v n) "weight" 1
          some (if b ≤ w ∧ w ≤ intervalHi b d then raw * 2 else raw)
        | _, _ => none) = [] := by
      rw [List.filterMap_eq_nil_iff]
      intro n hn
      rw [hvf]
    rw [hnil]
    rfl

/-- C5, witness: the amended theorem applied to the weight-less edge and
to vertex 1 of the 4-cycle state (absent from the vertex features). -/
theorem C5_amended_witness :
    ([0, 1], (1 : ℚ)) ∈ simplexTreeEntries gNoW (buildComplex gNoW 0 2) "weight" ∧
    estimateCocycleNorm mCyc 1 1 none = 0 := by
  have h := C5_amended gNoW (buildComplex gNoW 0 2) "weight" mCyc 1 1 none
    ⟨0, 1, [("time", 3)]⟩ (by decide) (by decide) (by decide)
  exact ⟨h.1, h.2⟩

end CRS
